import Mathlib

/-!
# Verification of the kimesh mesh-generator core

A shallow embedding of the algorithmic core of `mesh_dialog.py`
(`generate_mesh_backend`, its helper closures `iter_neighbors`, `reciprocal`,
`skewed_random_iter`, and the `Pattern` class), together with proofs and
refutations of the specified properties.

Conventions:
* Real-valued geometry is modelled over `ℚ`.  The constant `math.tan(math.pi/8)`
  (an irrational number) is kept as an explicit parameter `t`; no claim depends
  on its numeric value, only on the algebraic structure of the code.
* The pseudo-random generator `random.Random(seed)` is an external collaborator;
  it is modelled by an oracle supplying the outcome of each
  `rnd_state.random() < 1.0 - randomness` comparison and of each
  `rnd_state.shuffle` call.  Determinism of the Python PRNG is reflected by the
  oracle being a function of the seed.
-/

namespace Kimesh

/-! ## Pattern synthesizer (`class Pattern`, mesh_dialog.py lines 650-726)

A rendered segment is a polyline (list of points in unit-cell coordinates)
tagged with a trace/net index. -/

abbrev Pt := ℚ × ℚ

abbrev Seg := List Pt × ℕ

/-- The per-trace offset `sp = (i+0.5) * (1/(2*n))` used by every draw function. -/
def spOf (n i : ℕ) : ℚ := (i + 1/2) * (1 / (2 * n))

namespace Pattern

/-- `Pattern.draw_I` (lines 655-660).  The chamfer parameter is unused by the
straight-through shape, exactly as in the source. -/
def draw_I (n : ℕ) (_cd : ℚ) : List Seg :=
  (List.range n).flatMap fun i =>
    [([(spOf n i, 0), (spOf n i, 1)], i),
     ([(spOf n (2*n-1-i), 0), (spOf n (2*n-1-i), 1)], i)]

/-- `Pattern.draw_U` (lines 662-667): `cd *= pitch` then one corner trace per index. -/
def draw_U (n : ℕ) (cd : ℚ) : List Seg :=
  let pitch : ℚ := 1 / (2 * n)
  let c := cd * pitch
  (List.range n).map fun (i : ℕ) =>
    let sp := ((i : ℚ) + 1/2) * pitch
    ([(sp, 0), (sp, 1-sp-c), (sp+c, 1-sp), (1-sp-c, 1-sp), (1-sp, 1-sp-c), (1-sp, 0)], i)

/-- `Pattern.draw_L` (lines 669-676). -/
def draw_L (n : ℕ) (cd : ℚ) : List Seg :=
  let pitch : ℚ := 1 / (2 * n)
  let c := cd * pitch
  (List.range n).flatMap fun (i : ℕ) =>
    let sp := ((i : ℚ) + 1/2) * pitch
    let sp2 := (2*n-1-i + (1/2 : ℚ)) * pitch
    [([(sp, 0), (sp, 1-sp-c), (sp+c, 1-sp), (1, 1-sp)], i),
     ([(sp2, 0), (sp2, 1-sp2-c), (sp2+c, 1-sp2), (1, 1-sp2)], i)]

/-- `Pattern.draw_T` (lines 678-687). -/
def draw_T (n : ℕ) (cd : ℚ) : List Seg :=
  let pitch : ℚ := 1 / (2 * n)
  let c := cd * pitch
  (List.range n).flatMap fun (i : ℕ) =>
    let sp := ((i : ℚ) + 1/2) * pitch
    [([(0, sp), (1, sp)], i),
     ([(0, 1-sp), (sp-c, 1-sp), (sp, 1-sp+c), (sp, 1)], i),
     ([(1-sp, 1), (1-sp, 1-sp+c), (1-sp+c, 1-sp), (1, 1-sp)], i)]

/-- `Pattern.draw_X` (lines 689-697). -/
def draw_X (n : ℕ) (cd : ℚ) : List Seg :=
  let pitch : ℚ := 1 / (2 * n)
  let c := cd * pitch
  (List.range n).flatMap fun (i : ℕ) =>
    let sp := ((i : ℚ) + 1/2) * pitch
    [([(0, sp), (sp-c, sp), (sp, sp-c), (sp, 0)], i),
     ([(1-sp, 0), (1-sp, sp-c), (1-sp+c, sp), (1, sp)], i),
     ([(0, 1-sp), (sp-c, 1-sp), (sp, 1-sp+c), (sp, 1)], i),
     ([(1-sp, 1), (1-sp, 1-sp+c), (1-sp+c, 1-sp), (1, 1-sp)], i)]

/-- Exact rotation about `(0.5, 0.5)` for the four angles used by the lookup
table. `shapely.affinity.rotate` is counter-clockwise; at multiples of 90° the
cosine/sine are exact. -/
def rotPoint (deg : ℤ) (p : Pt) : Pt :=
  let cs : ℚ × ℚ :=
    if deg = 90 then (0, 1)
    else if deg = 180 then (-1, 0)
    else if deg = -90 then (0, -1)
    else (1, 0)
  (cs.1 * (p.1 - 1/2) - cs.2 * (p.2 - 1/2) + 1/2,
   cs.2 * (p.1 - 1/2) + cs.1 * (p.2 - 1/2) + 1/2)

/-- `Pattern.rotate` (lines 699-703): wrap a draw function, rotating every
yielded segment and keeping its net index. -/
def rotate (pat : ℕ → ℚ → List Seg) (deg : ℤ) : ℕ → ℚ → List Seg :=
  fun n cd => (pat n cd).map fun s => (s.1.map (rotPoint deg), s.2)

/-- `Pattern.raise_error` (lines 705-707): the `raise` is commented out in the
source; the function returns an empty list. -/
def raise_error (_n : ℕ) (_cd : ℚ) : List Seg := []

/-- `Pattern.LUT` (lines 709-726).  Keys outside `0..15` never occur (keys are
4-bit); Python's dict lookup would raise `KeyError` there. -/
def LUT : ℕ → ℕ → ℚ → List Seg
  | 0  => raise_error
  | 1  => rotate draw_U 90
  | 2  => rotate draw_U 180
  | 3  => rotate draw_L 90
  | 4  => rotate draw_U (-90)
  | 5  => rotate draw_I (-90)
  | 6  => rotate draw_L 180
  | 7  => draw_T
  | 8  => draw_U
  | 9  => draw_L
  | 10 => draw_I
  | 11 => rotate draw_T (-90)
  | 12 => rotate draw_L (-90)
  | 13 => rotate draw_T 180
  | 14 => rotate draw_T 90
  | 15 => draw_X
  | _  => raise_error

/-- `Pattern.render` (lines 651-653): `LUT[key](n, cd=math.tan(math.pi/8)*cd)`.
The factor `math.tan(math.pi/8)` is the abstract positive parameter `t`. -/
def render (t : ℚ) (key n : ℕ) (cd : ℚ) : List Seg := LUT key n (t * cd)

end Pattern

/-! ### Counting helper lemmas -/

lemma length_flatMap_const {α : Type} (f : ℕ → List α) (k n : ℕ)
    (h : ∀ i, (f i).length = k) : ((List.range n).flatMap f).length = k * n := by
  induction n with
  | zero => simp
  | succ n ih =>
      rw [List.range_succ, List.flatMap_append]
      simp [ih, h, Nat.mul_succ]

lemma net_mem_flatMap {chunk : ℕ → List Seg} {n : ℕ}
    (h : ∀ j, ∀ s ∈ chunk j, s.2 = j) :
    ∀ s ∈ (List.range n).flatMap chunk, s.2 < n := by
  intro s hs
  rcases List.mem_flatMap.mp hs with ⟨j, hj, hsj⟩
  rw [h j s hsj]
  exact List.mem_range.mp hj

namespace Pattern

lemma length_draw_I (n : ℕ) (cd : ℚ) : (draw_I n cd).length = 2 * n :=
  length_flatMap_const _ 2 n (fun _ => rfl)

lemma length_draw_U (n : ℕ) (cd : ℚ) : (draw_U n cd).length = n := by
  simp [draw_U]

lemma length_draw_L (n : ℕ) (cd : ℚ) : (draw_L n cd).length = 2 * n :=
  length_flatMap_const _ 2 n (fun _ => rfl)

lemma length_draw_T (n : ℕ) (cd : ℚ) : (draw_T n cd).length = 3 * n :=
  length_flatMap_const _ 3 n (fun _ => rfl)

lemma length_draw_X (n : ℕ) (cd : ℚ) : (draw_X n cd).length = 4 * n :=
  length_flatMap_const _ 4 n (fun _ => rfl)

lemma length_rotate (pat : ℕ → ℚ → List Seg) (deg : ℤ) (n : ℕ) (cd : ℚ) :
    (rotate pat deg n cd).length = (pat n cd).length := by
  simp [rotate]

lemma net_lt_draw_I (n : ℕ) (cd : ℚ) : ∀ s ∈ draw_I n cd, s.2 < n := by
  apply net_mem_flatMap
  intro j s hs
  simp only [List.mem_cons, List.not_mem_nil, or_false] at hs
  rcases hs with h | h <;> rw [h]

lemma net_lt_draw_U (n : ℕ) (cd : ℚ) : ∀ s ∈ draw_U n cd, s.2 < n := by
  intro s hs
  simp only [draw_U, List.mem_map, List.mem_range] at hs
  rcases hs with ⟨j, hj, hsj⟩
  rw [← hsj]
  exact hj

lemma net_lt_draw_L (n : ℕ) (cd : ℚ) : ∀ s ∈ draw_L n cd, s.2 < n := by
  apply net_mem_flatMap
  intro j s hs
  simp only [List.mem_cons, List.not_mem_nil, or_false] at hs
  rcases hs with h | h <;> rw [h]

lemma net_lt_draw_T (n : ℕ) (cd : ℚ) : ∀ s ∈ draw_T n cd, s.2 < n := by
  apply net_mem_flatMap
  intro j s hs
  simp only [List.mem_cons, List.not_mem_nil, or_false] at hs
  rcases hs with h | h | h <;> rw [h]

lemma net_lt_draw_X (n : ℕ) (cd : ℚ) : ∀ s ∈ draw_X n cd, s.2 < n := by
  apply net_mem_flatMap
  intro j s hs
  simp only [List.mem_cons, List.not_mem_nil, or_false] at hs
  rcases hs with h | h | h | h <;> rw [h]

lemma net_lt_rotate (pat : ℕ → ℚ → List Seg) (deg : ℤ) (n : ℕ) (cd : ℚ)
    (h : ∀ s ∈ pat n cd, s.2 < n) : ∀ s ∈ rotate pat deg n cd, s.2 < n := by
  intro s hs
  simp only [rotate, List.mem_map] at hs
  rcases hs with ⟨u, hu, hus⟩
  rw [← hus]
  exact h u hu

lemma net_lt_render (t : ℚ) (key n : ℕ) (cd : ℚ) :
    ∀ s ∈ render t key n cd, s.2 < n := by
  unfold render
  match key with
  | 0 => intro s hs; simp [LUT, raise_error] at hs
  | 1 => exact net_lt_rotate _ _ _ (t*cd) (net_lt_draw_U n _)
  | 2 => exact net_lt_rotate _ _ _ (t*cd) (net_lt_draw_U n (t*cd))
  | 3 => exact net_lt_rotate _ _ _ (t*cd) (net_lt_draw_L n (t*cd))
  | 4 => exact net_lt_rotate _ _ _ (t*cd) (net_lt_draw_U n (t*cd))
  | 5 => exact net_lt_rotate _ _ _ (t*cd) (net_lt_draw_I n (t*cd))
  | 6 => exact net_lt_rotate _ _ _ (t*cd) (net_lt_draw_L n (t*cd))
  | 7 => exact net_lt_draw_T n (t*cd)
  | 8 => exact net_lt_draw_U n (t*cd)
  | 9 => exact net_lt_draw_L n (t*cd)
  | 10 => exact net_lt_draw_I n (t*cd)
  | 11 => exact net_lt_rotate _ _ _ (t*cd) (net_lt_draw_T n (t*cd))
  | 12 => exact net_lt_rotate _ _ _ (t*cd) (net_lt_draw_L n (t*cd))
  | 13 => exact net_lt_rotate _ _ _ (t*cd) (net_lt_draw_T n (t*cd))
  | 14 => exact net_lt_rotate _ _ _ (t*cd) (net_lt_draw_T n (t*cd))
  | 15 => exact net_lt_draw_X n (t*cd)
  | (k+16) => intro s hs; simp [LUT, raise_error] at hs

end Pattern

/-- **C5.** `Pattern.render(0b0000, n, c)` yields no segments, and the other 15
keys yield the shape-determined counts: `2n` for the two I keys, `n` for the
four U keys, `2n` for the four L keys, `3n` for the four T keys and `4n` for
the X key; every yielded net index is `< n`.  (Proved for every chamfer `c`,
in particular `c = 0`, and every trace count `n`.) -/
theorem pattern_render_counts (t c : ℚ) (n : ℕ) :
    (Pattern.render t 0 n c).length = 0 ∧
    ((Pattern.render t 5 n c).length = 2*n ∧ (Pattern.render t 10 n c).length = 2*n) ∧
    ((Pattern.render t 1 n c).length = n ∧ (Pattern.render t 2 n c).length = n ∧
     (Pattern.render t 4 n c).length = n ∧ (Pattern.render t 8 n c).length = n) ∧
    ((Pattern.render t 3 n c).length = 2*n ∧ (Pattern.render t 6 n c).length = 2*n ∧
     (Pattern.render t 9 n c).length = 2*n ∧ (Pattern.render t 12 n c).length = 2*n) ∧
    ((Pattern.render t 7 n c).length = 3*n ∧ (Pattern.render t 11 n c).length = 3*n ∧
     (Pattern.render t 13 n c).length = 3*n ∧ (Pattern.render t 14 n c).length = 3*n) ∧
    (Pattern.render t 15 n c).length = 4*n ∧
    (∀ key, ∀ s ∈ Pattern.render t key n c, s.2 < n) := by
  refine ⟨rfl, ⟨?_, ?_⟩, ⟨?_, ?_, ?_, ?_⟩, ⟨?_, ?_, ?_, ?_⟩, ⟨?_, ?_, ?_, ?_⟩, ?_,
    fun key => Pattern.net_lt_render t key n c⟩ <;>
    simp [Pattern.render, Pattern.LUT, Pattern.length_rotate, Pattern.length_draw_I,
      Pattern.length_draw_U, Pattern.length_draw_L, Pattern.length_draw_T,
      Pattern.length_draw_X]

/-! ## Chamfer bevel depth (claim C6)

`Pattern.render` passes `math.tan(math.pi/8) * c` to the draw functions, which
multiply it by `pitch = 1/(2n)` (`cd *= pitch`).  The bevel depth actually
applied at a corner is therefore `t * c * (1/(2n))`, independent of the trace
index `i`. -/

/-- The `j`-th vertex of a polyline (default `(0,0)`; never used out of range). -/
def ptAt (s : List Pt) (j : ℕ) : Pt := s.getD j (0, 0)

/-- The `i`-th rendered segment of a pattern (default empty; never used out of range). -/
def segAt (l : List Seg) (i : ℕ) : Seg := l.getD i ([], 0)

/-- The chamfer bevel depth applied by `Pattern.render` at the corner of the
index-`i` trace of the U shape (key `0b1000`): the distance from the unchamfered
corner ordinate `1 - sp` down to the ordinate of the trace's second vertex
`(sp, 1 - sp - cd)`. -/
def bevelDepthU (t c : ℚ) (n i : ℕ) : ℚ :=
  (1 - spOf n i) - (ptAt (segAt (Pattern.render t 8 n c) i).1 1).2

/-- **C6 (amended).** The bevel depth applied at the corner of the index-`i`
trace equals `c * tan(π/8) * (1/(2n))` — proportional to the cell pitch
`1/(2n)`, the same for every trace index `i`, not to the trace's own offset
`sp = (i+0.5)/(2n)`.  (`t` stands for `tan(π/8)`.) -/
theorem bevel_depth_eq (t c : ℚ) (n i : ℕ) (hi : i < n) :
    bevelDepthU t c n i = c * (1 / (2 * n)) * t := by
  have hlen : i < (Pattern.render t 8 n c).length := by
    show i < (Pattern.LUT 8 n (t * c)).length
    simpa [Pattern.LUT, Pattern.length_draw_U] using hi
  unfold bevelDepthU segAt
  rw [List.getD_eq_getElem _ _ hlen]
  simp only [Pattern.render, Pattern.LUT, Pattern.draw_U, List.getElem_map,
    List.getElem_range, ptAt, spOf]
  norm_num
  ring

theorem bevel_depth_eq_witness :
    0 < 2 ∧ bevelDepthU 1 1 2 0 = 1 * (1 / (2 * (2 : ℕ))) * 1 :=
  ⟨by decide, bevel_depth_eq 1 1 2 0 (by decide)⟩

/-- **C6 counterexample.**  At `n = 1`, `i = 0`, `c = 1` (and unit stand-in for
`tan(π/8)`, the discrepancy being independent of that factor) the applied bevel
depth is `1/2`, while the claimed value `c * sp * tan(π/8)` is `1/4`. -/
theorem bevel_depth_counterexample :
    bevelDepthU 1 1 1 0 = 1/2 ∧ (1 : ℚ) * spOf 1 0 * 1 = 1/4 ∧
      bevelDepthU 1 1 1 0 ≠ (1 : ℚ) * spOf 1 0 * 1 := by
  have h1 : bevelDepthU 1 1 1 0 = 1/2 := by
    norm_num [bevelDepthU, segAt, ptAt, Pattern.render, Pattern.LUT, Pattern.draw_U,
      spOf, List.range_succ]
  have h2 : (1 : ℚ) * spOf 1 0 * 1 = 1/4 := by norm_num [spOf]
  refine ⟨h1, h2, ?_⟩
  rw [h1, h2]
  norm_num

/-! ## Edge continuity (claim C4)

Extremities (first and last vertex) of rendered polylines are the points at
which traces meet the cell boundary; the chamfer only displaces interior
vertices.  For two horizontally adjacent cells, the left cell's local point
`(1, v)` and the right cell's local point `(0, v)` are the same board point, so
continuity is the statement that the extremity offsets on the East edge of the
left pattern agree with those on the West edge of the right pattern, per net. -/

lemma spOf_pos {n i : ℕ} (hn : 0 < n) : 0 < spOf n i := by
  have hn' : (0 : ℚ) < n := by exact_mod_cast hn
  unfold spOf
  have h1 : (0 : ℚ) < (i : ℚ) + 1/2 := by positivity
  have h2 : (0 : ℚ) < 1 / (2 * (n : ℚ)) := by positivity
  exact mul_pos h1 h2

lemma spOf_lt_half {n i : ℕ} (hi : i < n) : spOf n i < 1/2 := by
  have hn : 0 < n := Nat.lt_of_le_of_lt (Nat.zero_le i) hi
  have hn' : (0 : ℚ) < n := by exact_mod_cast hn
  have hi' : (i : ℚ) + 1 ≤ n := by exact_mod_cast hi
  unfold spOf
  rw [mul_one_div, div_lt_div_iff₀ (by positivity) (by norm_num : (0:ℚ) < 2)]
  linarith

lemma spOf_compl {n i : ℕ} (hi : i < n) : spOf n (2*n-1-i) = 1 - spOf n i := by
  have hsum : (2*n-1-i) + i + 1 = 2*n := by omega
  have hc : ((2*n-1-i : ℕ) : ℚ) + i + 1 = 2*n := by exact_mod_cast congrArg (Nat.cast (R := ℚ)) hsum
  have hn0 : ((n : ℚ)) ≠ 0 := by
    have : 0 < n := by omega
    exact_mod_cast this.ne'
  unfold spOf
  field_simp
  linarith

/-- Start and end vertex of a rendered polyline (every rendered polyline is
non-empty, so the default is never used). -/
def segEnds (s : List Pt) : List Pt := [s.headD (0, 0), s.getLastD (0, 0)]

/-- Offsets collected by `cond` from extremities of the net-`i` polylines. -/
def touchBy (l : List Seg) (i : ℕ) (cond : Pt → Option ℚ) : List ℚ :=
  (l.filter (fun s => s.2 == i)).flatMap (fun s => (segEnds s.1).filterMap cond)

/-- Ordinates at which extremities of net-`i` polylines touch the vertical line
`x = xc` of the unit cell. -/
def vTouch (l : List Seg) (i : ℕ) (xc : ℚ) : Multiset ℚ :=
  (touchBy l i (fun p => if p.1 = xc then some p.2 else none) : List ℚ)

/-- Abscissae at which extremities of net-`i` polylines touch the horizontal
line `y = yc` of the unit cell. -/
def hTouch (l : List Seg) (i : ℕ) (yc : ℚ) : Multiset ℚ :=
  (touchBy l i (fun p => if p.2 = yc then some p.1 else none) : List ℚ)

/-- Extremity offsets of the net-`i` traces of pattern `key` on the East edge
(`x = 1`) of the unit cell. -/
def eastOffsets (t c : ℚ) (key n i : ℕ) : Multiset ℚ :=
  vTouch (Pattern.render t key n c) i 1

/-- Extremity offsets of the net-`i` traces of pattern `key` on the West edge
(`x = 0`) of the unit cell. -/
def westOffsets (t c : ℚ) (key n i : ℕ) : Multiset ℚ :=
  vTouch (Pattern.render t key n c) i 0

lemma getLastD_map_cons (rot : Pt → Pt) :
    ∀ (l : List Pt) (a : Pt) (d0 d1 : Pt),
      (List.map rot (a :: l)).getLastD d0 = rot ((a :: l).getLastD d1) := by
  intro l
  induction l with
  | nil => intro a d0 d1; simp
  | cons b l ih =>
      intro a d0 d1
      rw [List.map_cons, List.getLastD_cons, List.getLastD_cons]
      exact ih b (rot a) a

lemma segEnds_map (rot : Pt → Pt) (pts : List Pt) (h : pts ≠ []) :
    segEnds (pts.map rot) = (segEnds pts).map rot := by
  match pts, h with
  | a :: l, _ =>
    unfold segEnds
    simp only [List.map_cons, List.headD_cons, List.map]
    congr 1
    exact congrArg (fun q => [q]) (getLastD_map_cons rot l a (0,0) (0,0))

lemma touchBy_map (l : List Seg) (rot : Pt → Pt) (cond cond2 : Pt → Option ℚ)
    (hcond : ∀ p, cond (rot p) = cond2 p) (hne : ∀ s ∈ l, s.1 ≠ []) (i : ℕ) :
    touchBy (l.map (fun s => (s.1.map rot, s.2))) i cond = touchBy l i cond2 := by
  have hcr : (cond ∘ rot) = cond2 := funext hcond
  induction l with
  | nil => rfl
  | cons s l ih =>
    have hs : s.1 ≠ [] := hne s (List.mem_cons_self s l)
    have hl : ∀ u ∈ l, u.1 ≠ [] := fun u hu => hne u (List.mem_cons_of_mem s hu)
    unfold touchBy
    simp only [List.map_cons, List.filter_cons]
    by_cases hsi : (s.2 == i) = true
    · simp only [hsi, if_pos]
      rw [List.flatMap_cons, List.flatMap_cons]
      have hseg : (segEnds (s.1.map rot)).filterMap cond = (segEnds s.1).filterMap cond2 := by
        rw [segEnds_map rot s.1 hs, List.filterMap_map, hcr]
      rw [hseg]
      have := ih hl
      unfold touchBy at this
      rw [this]
    · simp only [hsi, if_neg]
      have := ih hl
      unfold touchBy at this
      exact this

lemma filter_net_flatMap {chunk : ℕ → List Seg} (n i : ℕ) (hi : i < n)
    (h : ∀ j, ∀ s ∈ chunk j, s.2 = j) :
    ((List.range n).flatMap chunk).filter (fun s => s.2 == i) = chunk i := by
  induction n with
  | zero => omega
  | succ n ih =>
    rw [List.range_succ, List.flatMap_append, List.filter_append]
    rcases Nat.lt_succ_iff_lt_or_eq.mp hi with hlt | heq
    · rw [ih hlt]
      have hnil : (chunk n).filter (fun s => s.2 == i) = [] := by
        rw [List.filter_eq_nil_iff]
        intro s hs
        simp only [beq_iff_eq, h n s hs]
        omega
      simp [hnil]
    · subst heq
      have h1 : ((List.range i).flatMap chunk).filter (fun s => s.2 == i) = [] := by
        rw [List.filter_eq_nil_iff]
        intro s hs
        rcases List.mem_flatMap.mp hs with ⟨j, hj, hsj⟩
        have hji : j < i := List.mem_range.mp hj
        simp only [beq_iff_eq, h j s hsj]
        omega
      have h2 : (chunk i).filter (fun s => s.2 == i) = chunk i := by
        rw [List.filter_eq_self]
        intro s hs
        simp [h i s hs]
      simp only [List.flatMap_cons, List.flatMap_nil, List.append_nil]
      rw [h1, h2]
      simp

lemma filter_net_map {g : ℕ → List Pt} (n i : ℕ) (hi : i < n) :
    ((List.range n).map (fun j => (g j, j))).filter (fun s => s.2 == i) = [(g i, i)] := by
  have hflat : ((List.range n).flatMap fun j => ([(g j, j)] : List Seg))
      = (List.range n).map (fun j => (g j, j)) := by
    induction (List.range n) with
    | nil => rfl
    | cons a l ih => simp only [List.flatMap_cons, List.map_cons, ih]; rfl
  have h2 := @filter_net_flatMap (fun j => ([(g j, j)] : List Seg)) n i hi
    (by intro j s hs; simp at hs; rw [hs])
  rw [hflat] at h2
  simpa using h2

namespace Pattern

lemma rotPoint_90 (p : Pt) : rotPoint 90 p = (1 - p.2, p.1) := by
  unfold rotPoint
  norm_num [Prod.ext_iff]
  ring

lemma rotPoint_180 (p : Pt) : rotPoint 180 p = (1 - p.1, 1 - p.2) := by
  unfold rotPoint
  norm_num [Prod.ext_iff]
  constructor <;> ring

lemma rotPoint_neg90 (p : Pt) : rotPoint (-90) p = (p.2, 1 - p.1) := by
  unfold rotPoint
  norm_num [Prod.ext_iff]
  ring

lemma ne_nil_draw_I (n : ℕ) (cd : ℚ) : ∀ s ∈ draw_I n cd, s.1 ≠ [] := by
  intro s hs
  rcases List.mem_flatMap.mp hs with ⟨j, _, hsj⟩
  simp only [List.mem_cons, List.not_mem_nil, or_false] at hsj
  rcases hsj with h | h <;> subst h <;> simp

lemma ne_nil_draw_U (n : ℕ) (cd : ℚ) : ∀ s ∈ draw_U n cd, s.1 ≠ [] := by
  intro s hs
  simp only [draw_U, List.mem_map] at hs
  rcases hs with ⟨j, _, hsj⟩
  rw [← hsj]
  simp

lemma ne_nil_draw_L (n : ℕ) (cd : ℚ) : ∀ s ∈ draw_L n cd, s.1 ≠ [] := by
  intro s hs
  rcases List.mem_flatMap.mp hs with ⟨j, _, hsj⟩
  simp only [List.mem_cons, List.not_mem_nil, or_false] at hsj
  rcases hsj with h | h <;> subst h <;> simp

lemma ne_nil_draw_T (n : ℕ) (cd : ℚ) : ∀ s ∈ draw_T n cd, s.1 ≠ [] := by
  intro s hs
  rcases List.mem_flatMap.mp hs with ⟨j, _, hsj⟩
  simp only [List.mem_cons, List.not_mem_nil, or_false] at hsj
  rcases hsj with h | h | h <;> subst h <;> simp

lemma ne_nil_draw_X (n : ℕ) (cd : ℚ) : ∀ s ∈ draw_X n cd, s.1 ≠ [] := by
  intro s hs
  rcases List.mem_flatMap.mp hs with ⟨j, _, hsj⟩
  simp only [List.mem_cons, List.not_mem_nil, or_false] at hsj
  rcases hsj with h | h | h | h <;> subst h <;> simp

/-! Condition-transfer facts: composing the East/West extremity collector with
an exact 90°-multiple rotation turns it into a collector along a horizontal or
vertical line of the unrotated pattern. -/

lemma condV_rot90_one (p : Pt) :
    (if (rotPoint 90 p).1 = 1 then some (rotPoint 90 p).2 else none)
      = (if p.2 = 0 then some p.1 else none) := by
  rw [rotPoint_90]
  by_cases h : p.2 = 0
  · rw [if_pos (show ((1 - p.2, p.1) : Pt).1 = 1 by simp [h]), if_pos h]
  · rw [if_neg (show ¬((1 - p.2, p.1) : Pt).1 = 1 by simpa using h), if_neg h]

lemma condV_rot90_zero (p : Pt) :
    (if (rotPoint 90 p).1 = 0 then some (rotPoint 90 p).2 else none)
      = (if p.2 = 1 then some p.1 else none) := by
  rw [rotPoint_90]
  by_cases h : p.2 = 1
  · rw [if_pos (show ((1 - p.2, p.1) : Pt).1 = 0 by simp [h]), if_pos h]
  · rw [if_neg (show ¬((1 - p.2, p.1) : Pt).1 = 0 from
        fun hc => h (by linarith [show (1:ℚ) - p.2 = 0 from hc])), if_neg h]

lemma condV_rot180_one (p : Pt) :
    (if (rotPoint 180 p).1 = 1 then some (rotPoint 180 p).2 else none)
      = (if p.1 = 0 then some (1 - p.2) else none) := by
  rw [rotPoint_180]
  by_cases h : p.1 = 0
  · rw [if_pos (show ((1 - p.1, 1 - p.2) : Pt).1 = 1 by simp [h]), if_pos h]
  · rw [if_neg (show ¬((1 - p.1, 1 - p.2) : Pt).1 = 1 by simpa using h), if_neg h]

lemma condV_rot180_zero (p : Pt) :
    (if (rotPoint 180 p).1 = 0 then some (rotPoint 180 p).2 else none)
      = (if p.1 = 1 then some (1 - p.2) else none) := by
  rw [rotPoint_180]
  by_cases h : p.1 = 1
  · rw [if_pos (show ((1 - p.1, 1 - p.2) : Pt).1 = 0 by simp [h]), if_pos h]
  · rw [if_neg (show ¬((1 - p.1, 1 - p.2) : Pt).1 = 0 from
        fun hc => h (by linarith [show (1:ℚ) - p.1 = 0 from hc])), if_neg h]

lemma condV_neg90_one (p : Pt) :
    (if (rotPoint (-90) p).1 = 1 then some (rotPoint (-90) p).2 else none)
      = (if p.2 = 1 then some (1 - p.1) else none) := by
  rw [rotPoint_neg90]

lemma condV_neg90_zero (p : Pt) :
    (if (rotPoint (-90) p).1 = 0 then some (rotPoint (-90) p).2 else none)
      = (if p.2 = 0 then some (1 - p.1) else none) := by
  rw [rotPoint_neg90]

end Pattern

lemma pair_swap (a b : ℚ) : (([a, b] : List ℚ) : Multiset ℚ) = {b, a} := by
  show a ::ₘ b ::ₘ (0 : Multiset ℚ) = b ::ₘ a ::ₘ (0 : Multiset ℚ)
  exact Multiset.cons_swap _ _ _

/-- Extremity offsets of net `i` on the East edge for key `0b0001` (U rotated 90°). -/
lemma eastOffsets_1 (t c : ℚ) {n i : ℕ} (hi : i < n) :
    eastOffsets t c 1 n i = {spOf n i, 1 - spOf n i} := by
  unfold eastOffsets vTouch
  simp only [Pattern.render, Pattern.LUT, Pattern.rotate]
  rw [touchBy_map _ _ _ _ Pattern.condV_rot90_one (Pattern.ne_nil_draw_U n _) i]
  unfold touchBy
  simp only [Pattern.draw_U]
  rw [filter_net_map n i hi]
  simp only [List.flatMap_cons, List.flatMap_nil, List.append_nil, segEnds,
    List.headD_cons, List.getLastD_cons, List.getLastD_nil,
    List.filterMap_cons, List.filterMap_nil]
  norm_num
  rw [show ((i : ℚ) + 1 / 2) * (((n : ℚ))⁻¹ * (1 / 2)) = spOf n i from by unfold spOf; ring]
  rfl

/-- Extremity offsets of net `i` on the East edge for key `0b0011` (L rotated 90°). -/
lemma eastOffsets_3 (t c : ℚ) {n i : ℕ} (hi : i < n) :
    eastOffsets t c 3 n i = {spOf n i, 1 - spOf n i} := by
  have hn : 0 < n := Nat.lt_of_le_of_lt (Nat.zero_le i) hi
  have h0 : 0 < spOf n i := spOf_pos hn
  have h2 : spOf n i < 1/2 := spOf_lt_half hi
  have hn0 : ((n : ℚ)) ≠ 0 := by exact_mod_cast hn.ne'
  have hsp2 : (2*(n:ℚ) - 1 - (i:ℚ) + 1/2) * (1/(2*(n:ℚ))) = 1 - spOf n i := by
    unfold spOf; field_simp; ring
  unfold eastOffsets vTouch
  simp only [Pattern.render, Pattern.LUT, Pattern.rotate]
  rw [touchBy_map _ _ _ _ Pattern.condV_rot90_one (Pattern.ne_nil_draw_L n _) i]
  unfold touchBy
  simp only [Pattern.draw_L]
  rw [filter_net_flatMap n i hi (by
    intro j s hs
    simp only [List.mem_cons, List.not_mem_nil, or_false] at hs
    rcases hs with h | h <;> rw [h])]
  rw [show (((i : ℚ)) + 1/2) * (1/(2*(n : ℚ))) = spOf n i from rfl, hsp2]
  simp only [List.flatMap_cons, List.flatMap_nil, List.append_nil, segEnds,
    List.headD_cons, List.getLastD_cons, List.getLastD_nil,
    List.filterMap_cons, List.filterMap_nil]
  norm_num [h0.ne', (show (1:ℚ) - spOf n i ≠ 0 from fun hc => by linarith),
    (show (1:ℚ) - (1 - spOf n i) ≠ 0 from fun hc => by linarith)]
  rfl

/-- Extremity offsets of net `i` on the East edge for key `0b0101` (I rotated -90°). -/
lemma eastOffsets_5 (t c : ℚ) {n i : ℕ} (hi : i < n) :
    eastOffsets t c 5 n i = {spOf n i, 1 - spOf n i} := by
  unfold eastOffsets vTouch
  simp only [Pattern.render, Pattern.LUT, Pattern.rotate]
  rw [touchBy_map _ _ _ _ Pattern.condV_neg90_one (Pattern.ne_nil_draw_I n _) i]
  unfold touchBy
  simp only [Pattern.draw_I]
  rw [filter_net_flatMap n i hi (by
    intro j s hs
    simp only [List.mem_cons, List.not_mem_nil, or_false] at hs
    rcases hs with h | h <;> rw [h])]
  rw [spOf_compl hi]
  simp only [List.flatMap_cons, List.flatMap_nil, List.append_nil, segEnds,
    List.headD_cons, List.getLastD_cons, List.getLastD_nil,
    List.filterMap_cons, List.filterMap_nil]
  norm_num
  exact pair_swap _ _

/-- Extremity offsets of net `i` on the East edge for key `0b0111` (T unrotated). -/
lemma eastOffsets_7 (t c : ℚ) {n i : ℕ} (hi : i < n) :
    eastOffsets t c 7 n i = {spOf n i, 1 - spOf n i} := by
  have hn : 0 < n := Nat.lt_of_le_of_lt (Nat.zero_le i) hi
  have h0 : 0 < spOf n i := spOf_pos hn
  have h2 : spOf n i < 1/2 := spOf_lt_half hi
  unfold eastOffsets vTouch
  simp only [Pattern.render, Pattern.LUT]
  unfold touchBy
  simp only [Pattern.draw_T]
  rw [filter_net_flatMap n i hi (by
    intro j s hs
    simp only [List.mem_cons, List.not_mem_nil, or_false] at hs
    rcases hs with h | h | h <;> rw [h])]
  rw [show (((i : ℚ)) + 1/2) * (1/(2*(n : ℚ))) = spOf n i from rfl]
  simp only [List.flatMap_cons, List.flatMap_nil, List.append_nil, segEnds,
    List.headD_cons, List.getLastD_cons, List.getLastD_nil,
    List.filterMap_cons, List.filterMap_nil]
  norm_num [h0.ne', (show spOf n i ≠ 1 from fun hc => by linarith),
    (show (1:ℚ) - spOf n i ≠ 0 from fun hc => by linarith),
    (show (1:ℚ) - spOf n i ≠ 1 from fun hc => by linarith)]
  rfl

/-- Extremity offsets of net `i` on the East edge for key `0b1001` (L unrotated). -/
lemma eastOffsets_9 (t c : ℚ) {n i : ℕ} (hi : i < n) :
    eastOffsets t c 9 n i = {spOf n i, 1 - spOf n i} := by
  have hn : 0 < n := Nat.lt_of_le_of_lt (Nat.zero_le i) hi
  have h0 : 0 < spOf n i := spOf_pos hn
  have h2 : spOf n i < 1/2 := spOf_lt_half hi
  have hn0 : ((n : ℚ)) ≠ 0 := by exact_mod_cast hn.ne'
  have hsp2 : (2*(n:ℚ) - 1 - (i:ℚ) + 1/2) * (1/(2*(n:ℚ))) = 1 - spOf n i := by
    unfold spOf; field_simp; ring
  unfold eastOffsets vTouch
  simp only [Pattern.render, Pattern.LUT]
  unfold touchBy
  simp only [Pattern.draw_L]
  rw [filter_net_flatMap n i hi (by
    intro j s hs
    simp only [List.mem_cons, List.not_mem_nil, or_false] at hs
    rcases hs with h | h <;> rw [h])]
  rw [show (((i : ℚ)) + 1/2) * (1/(2*(n : ℚ))) = spOf n i from rfl, hsp2]
  simp only [List.flatMap_cons, List.flatMap_nil, List.append_nil, segEnds,
    List.headD_cons, List.getLastD_cons, List.getLastD_nil,
    List.filterMap_cons, List.filterMap_nil]
  norm_num [h0.ne', (show spOf n i ≠ 1 from fun hc => by linarith),
    (show (1:ℚ) - spOf n i ≠ 0 from fun hc => by linarith),
    (show (1:ℚ) - spOf n i ≠ 1 from fun hc => by linarith)]
  exact pair_swap _ _

/-- Extremity offsets of net `i` on the East edge for key `0b1011` (T rotated -90°). -/
lemma eastOffsets_11 (t c : ℚ) {n i : ℕ} (hi : i < n) :
    eastOffsets t c 11 n i = {spOf n i, 1 - spOf n i} := by
  have hn : 0 < n := Nat.lt_of_le_of_lt (Nat.zero_le i) hi
  have h0 : 0 < spOf n i := spOf_pos hn
  have h2 : spOf n i < 1/2 := spOf_lt_half hi
  unfold eastOffsets vTouch
  simp only [Pattern.render, Pattern.LUT, Pattern.rotate]
  rw [touchBy_map _ _ _ _ Pattern.condV_neg90_one (Pattern.ne_nil_draw_T n _) i]
  unfold touchBy
  simp only [Pattern.draw_T]
  rw [filter_net_flatMap n i hi (by
    intro j s hs
    simp only [List.mem_cons, List.not_mem_nil, or_false] at hs
    rcases hs with h | h | h <;> rw [h])]
  rw [show (((i : ℚ)) + 1/2) * (1/(2*(n : ℚ))) = spOf n i from rfl]
  simp only [List.flatMap_cons, List.flatMap_nil, List.append_nil, segEnds,
    List.headD_cons, List.getLastD_cons, List.getLastD_nil,
    List.filterMap_cons, List.filterMap_nil]
  norm_num [h0.ne', (show spOf n i ≠ 1 from fun hc => by linarith),
    (show (1:ℚ) - spOf n i ≠ 0 from fun hc => by linarith),
    (show (1:ℚ) - spOf n i ≠ 1 from fun hc => by linarith)]
  exact pair_swap _ _

/-- Extremity offsets of net `i` on the East edge for key `0b1101` (T rotated 180°). -/
lemma eastOffsets_13 (t c : ℚ) {n i : ℕ} (hi : i < n) :
    eastOffsets t c 13 n i = {spOf n i, 1 - spOf n i} := by
  have hn : 0 < n := Nat.lt_of_le_of_lt (Nat.zero_le i) hi
  have h0 : 0 < spOf n i := spOf_pos hn
  have h2 : spOf n i < 1/2 := spOf_lt_half hi
  unfold eastOffsets vTouch
  simp only [Pattern.render, Pattern.LUT, Pattern.rotate]
  rw [touchBy_map _ _ _ _ Pattern.condV_rot180_one (Pattern.ne_nil_draw_T n _) i]
  unfold touchBy
  simp only [Pattern.draw_T]
  rw [filter_net_flatMap n i hi (by
    intro j s hs
    simp only [List.mem_cons, List.not_mem_nil, or_false] at hs
    rcases hs with h | h | h <;> rw [h])]
  rw [show (((i : ℚ)) + 1/2) * (1/(2*(n : ℚ))) = spOf n i from rfl]
  simp only [List.flatMap_cons, List.flatMap_nil, List.append_nil, segEnds,
    List.headD_cons, List.getLastD_cons, List.getLastD_nil,
    List.filterMap_cons, List.filterMap_nil]
  norm_num [h0.ne', (show spOf n i ≠ 1 from fun hc => by linarith),
    (show (1:ℚ) - spOf n i ≠ 0 from fun hc => by linarith),
    (show (1:ℚ) - spOf n i ≠ 1 from fun hc => by linarith)]
  exact pair_swap _ _

/-- Extremity offsets of net `i` on the East edge for key `0b1111` (X). -/
lemma eastOffsets_15 (t c : ℚ) {n i : ℕ} (hi : i < n) :
    eastOffsets t c 15 n i = {spOf n i, 1 - spOf n i} := by
  have hn : 0 < n := Nat.lt_of_le_of_lt (Nat.zero_le i) hi
  have h0 : 0 < spOf n i := spOf_pos hn
  have h2 : spOf n i < 1/2 := spOf_lt_half hi
  unfold eastOffsets vTouch
  simp only [Pattern.render, Pattern.LUT]
  unfold touchBy
  simp only [Pattern.draw_X]
  rw [filter_net_flatMap n i hi (by
    intro j s hs
    simp only [List.mem_cons, List.not_mem_nil, or_false] at hs
    rcases hs with h | h | h | h <;> rw [h])]
  rw [show (((i : ℚ)) + 1/2) * (1/(2*(n : ℚ))) = spOf n i from rfl]
  simp only [List.flatMap_cons, List.flatMap_nil, List.append_nil, segEnds,
    List.headD_cons, List.getLastD_cons, List.getLastD_nil,
    List.filterMap_cons, List.filterMap_nil]
  norm_num [h0.ne', (show spOf n i ≠ 1 from fun hc => by linarith),
    (show (1:ℚ) - spOf n i ≠ 0 from fun hc => by linarith),
    (show (1:ℚ) - spOf n i ≠ 1 from fun hc => by linarith)]
  rfl

/-- Extremity offsets of net `i` on the West edge for key `0b0100` (U rotated -90°). -/
lemma westOffsets_4 (t c : ℚ) {n i : ℕ} (hi : i < n) :
    westOffsets t c 4 n i = {spOf n i, 1 - spOf n i} := by
  unfold westOffsets vTouch
  simp only [Pattern.render, Pattern.LUT, Pattern.rotate]
  rw [touchBy_map _ _ _ _ Pattern.condV_neg90_zero (Pattern.ne_nil_draw_U n _) i]
  unfold touchBy
  simp only [Pattern.draw_U]
  rw [filter_net_map n i hi]
  rw [show (((i : ℚ)) + 1/2) * (1/(2*(n : ℚ))) = spOf n i from rfl]
  simp only [List.flatMap_cons, List.flatMap_nil, List.append_nil, segEnds,
    List.headD_cons, List.getLastD_cons, List.getLastD_nil,
    List.filterMap_cons, List.filterMap_nil]
  norm_num
  exact pair_swap _ _

/-- Extremity offsets of net `i` on the West edge for key `0b0101` (I rotated -90°). -/
lemma westOffsets_5 (t c : ℚ) {n i : ℕ} (hi : i < n) :
    westOffsets t c 5 n i = {spOf n i, 1 - spOf n i} := by
  unfold westOffsets vTouch
  simp only [Pattern.render, Pattern.LUT, Pattern.rotate]
  rw [touchBy_map _ _ _ _ Pattern.condV_neg90_zero (Pattern.ne_nil_draw_I n _) i]
  unfold touchBy
  simp only [Pattern.draw_I]
  rw [filter_net_flatMap n i hi (by
    intro j s hs
    simp only [List.mem_cons, List.not_mem_nil, or_false] at hs
    rcases hs with h | h <;> rw [h])]
  rw [spOf_compl hi]
  simp only [List.flatMap_cons, List.flatMap_nil, List.append_nil, segEnds,
    List.headD_cons, List.getLastD_cons, List.getLastD_nil,
    List.filterMap_cons, List.filterMap_nil]
  norm_num
  exact pair_swap _ _

/-- Extremity offsets of net `i` on the West edge for key `0b0110` (L rotated 180°). -/
lemma westOffsets_6 (t c : ℚ) {n i : ℕ} (hi : i < n) :
    westOffsets t c 6 n i = {spOf n i, 1 - spOf n i} := by
  have hn : 0 < n := Nat.lt_of_le_of_lt (Nat.zero_le i) hi
  have h0 : 0 < spOf n i := spOf_pos hn
  have h2 : spOf n i < 1/2 := spOf_lt_half hi
  have hn0 : ((n : ℚ)) ≠ 0 := by exact_mod_cast hn.ne'
  have hsp2 : (2*(n:ℚ) - 1 - (i:ℚ) + 1/2) * (1/(2*(n:ℚ))) = 1 - spOf n i := by
    unfold spOf; field_simp; ring
  unfold westOffsets vTouch
  simp only [Pattern.render, Pattern.LUT, Pattern.rotate]
  rw [touchBy_map _ _ _ _ Pattern.condV_rot180_zero (Pattern.ne_nil_draw_L n _) i]
  unfold touchBy
  simp only [Pattern.draw_L]
  rw [filter_net_flatMap n i hi (by
    intro j s hs
    simp only [List.mem_cons, List.not_mem_nil, or_false] at hs
    rcases hs with h | h <;> rw [h])]
  rw [show (((i : ℚ)) + 1/2) * (1/(2*(n : ℚ))) = spOf n i from rfl, hsp2]
  simp only [List.flatMap_cons, List.flatMap_nil, List.append_nil, segEnds,
    List.headD_cons, List.getLastD_cons, List.getLastD_nil,
    List.filterMap_cons, List.filterMap_nil]
  norm_num [h0.ne', (show spOf n i ≠ 1 from fun hc => by linarith),
    (show (1:ℚ) - spOf n i ≠ 0 from fun hc => by linarith),
    (show (1:ℚ) - spOf n i ≠ 1 from fun hc => by linarith)]
  rfl

/-- Extremity offsets of net `i` on the West edge for key `0b0111` (T unrotated). -/
lemma westOffsets_7 (t c : ℚ) {n i : ℕ} (hi : i < n) :
    westOffsets t c 7 n i = {spOf n i, 1 - spOf n i} := by
  have hn : 0 < n := Nat.lt_of_le_of_lt (Nat.zero_le i) hi
  have h0 : 0 < spOf n i := spOf_pos hn
  have h2 : spOf n i < 1/2 := spOf_lt_half hi
  unfold westOffsets vTouch
  simp only [Pattern.render, Pattern.LUT]
  unfold touchBy
  simp only [Pattern.draw_T]
  rw [filter_net_flatMap n i hi (by
    intro j s hs
    simp only [List.mem_cons, List.not_mem_nil, or_false] at hs
    rcases hs with h | h | h <;> rw [h])]
  rw [show (((i : ℚ)) + 1/2) * (1/(2*(n : ℚ))) = spOf n i from rfl]
  simp only [List.flatMap_cons, List.flatMap_nil, List.append_nil, segEnds,
    List.headD_cons, List.getLastD_cons, List.getLastD_nil,
    List.filterMap_cons, List.filterMap_nil]
  norm_num [h0.ne', (show spOf n i ≠ 1 from fun hc => by linarith),
    (show (1:ℚ) - spOf n i ≠ 0 from fun hc => by linarith),
    (show (1:ℚ) - spOf n i ≠ 1 from fun hc => by linarith)]
  rfl

/-- Extremity offsets of net `i` on the West edge for key `0b1100` (L rotated -90°). -/
lemma westOffsets_12 (t c : ℚ) {n i : ℕ} (hi : i < n) :
    westOffsets t c 12 n i = {spOf n i, 1 - spOf n i} := by
  have hn : 0 < n := Nat.lt_of_le_of_lt (Nat.zero_le i) hi
  have h0 : 0 < spOf n i := spOf_pos hn
  have h2 : spOf n i < 1/2 := spOf_lt_half hi
  have hn0 : ((n : ℚ)) ≠ 0 := by exact_mod_cast hn.ne'
  have hsp2 : (2*(n:ℚ) - 1 - (i:ℚ) + 1/2) * (1/(2*(n:ℚ))) = 1 - spOf n i := by
    unfold spOf; field_simp; ring
  unfold westOffsets vTouch
  simp only [Pattern.render, Pattern.LUT, Pattern.rotate]
  rw [touchBy_map _ _ _ _ Pattern.condV_neg90_zero (Pattern.ne_nil_draw_L n _) i]
  unfold touchBy
  simp only [Pattern.draw_L]
  rw [filter_net_flatMap n i hi (by
    intro j s hs
    simp only [List.mem_cons, List.not_mem_nil, or_false] at hs
    rcases hs with h | h <;> rw [h])]
  rw [show (((i : ℚ)) + 1/2) * (1/(2*(n : ℚ))) = spOf n i from rfl, hsp2]
  simp only [List.flatMap_cons, List.flatMap_nil, List.append_nil, segEnds,
    List.headD_cons, List.getLastD_cons, List.getLastD_nil,
    List.filterMap_cons, List.filterMap_nil]
  norm_num [h0.ne', (show spOf n i ≠ 1 from fun hc => by linarith),
    (show (1:ℚ) - spOf n i ≠ 0 from fun hc => by linarith),
    (show (1:ℚ) - spOf n i ≠ 1 from fun hc => by linarith)]
  exact pair_swap _ _

/-- Extremity offsets of net `i` on the West edge for key `0b1101` (T rotated 180°). -/
lemma westOffsets_13 (t c : ℚ) {n i : ℕ} (hi : i < n) :
    westOffsets t c 13 n i = {spOf n i, 1 - spOf n i} := by
  have hn : 0 < n := Nat.lt_of_le_of_lt (Nat.zero_le i) hi
  have h0 : 0 < spOf n i := spOf_pos hn
  have h2 : spOf n i < 1/2 := spOf_lt_half hi
  unfold westOffsets vTouch
  simp only [Pattern.render, Pattern.LUT, Pattern.rotate]
  rw [touchBy_map _ _ _ _ Pattern.condV_rot180_zero (Pattern.ne_nil_draw_T n _) i]
  unfold touchBy
  simp only [Pattern.draw_T]
  rw [filter_net_flatMap n i hi (by
    intro j s hs
    simp only [List.mem_cons, List.not_mem_nil, or_false] at hs
    rcases hs with h | h | h <;> rw [h])]
  rw [show (((i : ℚ)) + 1/2) * (1/(2*(n : ℚ))) = spOf n i from rfl]
  simp only [List.flatMap_cons, List.flatMap_nil, List.append_nil, segEnds,
    List.headD_cons, List.getLastD_cons, List.getLastD_nil,
    List.filterMap_cons, List.filterMap_nil]
  norm_num [h0.ne', (show spOf n i ≠ 1 from fun hc => by linarith),
    (show (1:ℚ) - spOf n i ≠ 0 from fun hc => by linarith),
    (show (1:ℚ) - spOf n i ≠ 1 from fun hc => by linarith)]
  exact pair_swap _ _

/-- Extremity offsets of net `i` on the West edge for key `0b1110` (T rotated 90°). -/
lemma westOffsets_14 (t c : ℚ) {n i : ℕ} (hi : i < n) :
    westOffsets t c 14 n i = {spOf n i, 1 - spOf n i} := by
  have hn : 0 < n := Nat.lt_of_le_of_lt (Nat.zero_le i) hi
  have h0 : 0 < spOf n i := spOf_pos hn
  have h2 : spOf n i < 1/2 := spOf_lt_half hi
  unfold westOffsets vTouch
  simp only [Pattern.render, Pattern.LUT, Pattern.rotate]
  rw [touchBy_map _ _ _ _ Pattern.condV_rot90_zero (Pattern.ne_nil_draw_T n _) i]
  unfold touchBy
  simp only [Pattern.draw_T]
  rw [filter_net_flatMap n i hi (by
    intro j s hs
    simp only [List.mem_cons, List.not_mem_nil, or_false] at hs
    rcases hs with h | h | h <;> rw [h])]
  rw [show (((i : ℚ)) + 1/2) * (1/(2*(n : ℚ))) = spOf n i from rfl]
  simp only [List.flatMap_cons, List.flatMap_nil, List.append_nil, segEnds,
    List.headD_cons, List.getLastD_cons, List.getLastD_nil,
    List.filterMap_cons, List.filterMap_nil]
  norm_num [h0.ne', (show spOf n i ≠ 1 from fun hc => by linarith),
    (show (1:ℚ) - spOf n i ≠ 0 from fun hc => by linarith),
    (show (1:ℚ) - spOf n i ≠ 1 from fun hc => by linarith)]
  rfl

/-- Extremity offsets of net `i` on the West edge for key `0b1111` (X). -/
lemma westOffsets_15 (t c : ℚ) {n i : ℕ} (hi : i < n) :
    westOffsets t c 15 n i = {spOf n i, 1 - spOf n i} := by
  have hn : 0 < n := Nat.lt_of_le_of_lt (Nat.zero_le i) hi
  have h0 : 0 < spOf n i := spOf_pos hn
  have h2 : spOf n i < 1/2 := spOf_lt_half hi
  unfold westOffsets vTouch
  simp only [Pattern.render, Pattern.LUT]
  unfold touchBy
  simp only [Pattern.draw_X]
  rw [filter_net_flatMap n i hi (by
    intro j s hs
    simp only [List.mem_cons, List.not_mem_nil, or_false] at hs
    rcases hs with h | h | h | h <;> rw [h])]
  rw [show (((i : ℚ)) + 1/2) * (1/(2*(n : ℚ))) = spOf n i from rfl]
  simp only [List.flatMap_cons, List.flatMap_nil, List.append_nil, segEnds,
    List.headD_cons, List.getLastD_cons, List.getLastD_nil,
    List.filterMap_cons, List.filterMap_nil]
  norm_num [h0.ne', (show spOf n i ≠ 1 from fun hc => by linarith),
    (show (1:ℚ) - spOf n i ≠ 0 from fun hc => by linarith),
    (show (1:ℚ) - spOf n i ≠ 1 from fun hc => by linarith)]
  rfl

lemma eastOffsets_eq (t c : ℚ) {k n i : ℕ} (hk : k < 16) (hE : k.testBit 0 = true)
    (hi : i < n) : eastOffsets t c k n i = {spOf n i, 1 - spOf n i} := by
  interval_cases k <;>
  first
  | exact absurd hE (by decide)
  | exact eastOffsets_1 t c hi
  | exact eastOffsets_3 t c hi
  | exact eastOffsets_5 t c hi
  | exact eastOffsets_7 t c hi
  | exact eastOffsets_9 t c hi
  | exact eastOffsets_11 t c hi
  | exact eastOffsets_13 t c hi
  | exact eastOffsets_15 t c hi

lemma westOffsets_eq (t c : ℚ) {k n i : ℕ} (hk : k < 16) (hW : k.testBit 2 = true)
    (hi : i < n) : westOffsets t c k n i = {spOf n i, 1 - spOf n i} := by
  interval_cases k <;>
  first
  | exact absurd hW (by decide)
  | exact westOffsets_4 t c hi
  | exact westOffsets_5 t c hi
  | exact westOffsets_6 t c hi
  | exact westOffsets_7 t c hi
  | exact westOffsets_12 t c hi
  | exact westOffsets_13 t c hi
  | exact westOffsets_14 t c hi
  | exact westOffsets_15 t c hi

/-- **C4.** For two horizontally adjacent cells whose keys carry the East bit
(left cell) and West bit (right cell), the extremity offsets (ordinate and net
index) at which the index-`i` traces of the left pattern meet the shared edge
`x = 1` coincide exactly with those at which the index-`i` traces of the right
pattern meet its edge `x = 0` — both are `{sp, 1-sp}` with `sp = (i+0.5)/(2n)`.
Since cell-local `(1, v)` of the left cell and `(0, v)` of the right cell map to
the same board point, the patterns compose seamlessly edge-to-edge, for every
trace count `n`, chamfer `c` and trace index `i < n` (exact over `ℚ`; the
floating-point tolerance of the claim is not needed). -/
theorem edge_continuity (t c : ℚ) (kL kR n i : ℕ) (hkL : kL < 16) (hkR : kR < 16)
    (hE : kL.testBit 0 = true) (hW : kR.testBit 2 = true) (hi : i < n) :
    eastOffsets t c kL n i = westOffsets t c kR n i ∧
    eastOffsets t c kL n i = {spOf n i, 1 - spOf n i} := by
  have he := eastOffsets_eq t c hkL hE hi
  have hw := westOffsets_eq t c hkR hW hi
  exact ⟨he.trans hw.symm, he⟩

/-- Witness for `edge_continuity` at `kL = kR = 5`, `n = 1`, `i = 0`. -/
theorem edge_continuity_witness :
    (5 : ℕ) < 16 ∧ Nat.testBit 5 0 = true ∧ Nat.testBit 5 2 = true ∧ 0 < 1 ∧
    (eastOffsets 1 0 5 1 0 = westOffsets 1 0 5 1 0 ∧
     eastOffsets 1 0 5 1 0 = {spOf 1 0, 1 - spOf 1 0}) :=
  ⟨by decide, by decide, by decide, by decide,
    edge_continuity 1 0 5 5 1 0 (by decide) (by decide) (by decide) (by decide)
      (by decide)⟩

/-! ## Maze router (generate_mesh_backend, lines 446-625)

The traversal state and one iteration of the `while not_visited or stack` loop.
The PRNG is an oracle: `bias k` is the outcome of the `k`-th
`rnd_state.random() < 1.0 - randomness` comparison, `shuf k` the permutation
applied by the `k`-th executed `rnd_state.shuffle`.  Both are consumed lazily,
exactly as the `skewed_random_iter` generator interleaves with its consumer. -/

/-- A neighbor candidate `(x, y, direction-bit)` as yielded by `iter_neighbors`. -/
abbrev Cand := ℤ × ℤ × ℕ

/-- `iter_neighbors` (lines 455-463), in source order West, East, North, South.
The East and South guards are off by one (`x - grid_x0 < grid_cols` admits
`x+1 = grid_x0 + grid_cols`), faithfully reproduced. -/
def iter_neighbors (x0 y0 : ℤ) (cols rows : ℕ) (x y : ℤ) : List Cand :=
  (if x0 < x then [(x-1, y, (4:ℕ))] else []) ++
  (if x - x0 < cols then [(x+1, y, (1:ℕ))] else []) ++
  (if y0 < y then [(x, y-1, (8:ℕ))] else []) ++
  (if y - y0 < rows then [(x, y+1, (2:ℕ))] else [])

/-- `reciprocal` (lines 465-472).  The dict has entries for `1,2,4,8,0` only;
any other argument would raise `KeyError` in Python and never occurs. -/
def reciprocal (mask : ℕ) : ℕ :=
  if mask = 1 then 4
  else if mask = 2 then 8
  else if mask = 4 then 1
  else if mask = 8 then 2
  else 0

/-- The list of candidates yielded by one full run of the `skewed_random_iter`
generator (lines 475-484), given the outcome `bias` of the
`rnd_state.random() < 1.0 - randomness` draw and the permutation `shuf` applied
by `rnd_state.shuffle` (which sits outside the `if`, so it runs on every path
that reaches it).  In the biased branch with no candidate matching `mask`, the
`for` loop leaves its variables at the last candidate and `l.remove((x, y, m))`
deletes its first occurrence, which is then never yielded; with an empty list
the branch would raise `UnboundLocalError` (unreachable from the traversal,
which always has at least one candidate). -/
def skewed_random_iter (bias : Bool) (shuf : List Cand → List Cand)
    (l : List Cand) (mask : ℕ) : List Cand :=
  if bias then
    match l.find? (fun c => c.2.2 == mask) with
    | some c => c :: shuf (l.erase c)
    | none =>
      match l.getLast? with
      | none => []
      | some d => shuf (l.erase d)
  else shuf l

/-- The PRNG oracle: an abstraction of `random.Random(seed)`. -/
structure Oracle where
  bias : ℕ → Bool
  shuf : ℕ → List Cand → List Cand

/-- A well-behaved oracle: every shuffle returns a permutation of its input
(as `random.shuffle` does). -/
def OracleOK (O : Oracle) : Prop := ∀ k l, (O.shuf k l).Perm l

/-- The grid/mask data the traversal reads (built in lines 367-387 and 446-453):
origin indices, extent, and the validity predicate `is_valid` of the cell at
given grid coordinates (mask containment plus optional track clearance). -/
structure GridCfg where
  x0 : ℤ
  y0 : ℤ
  cols : ℕ
  rows : ℕ
  valid : ℤ × ℤ → Bool

/-- The exit cell, fixed at `(-1, 0)` (lines 407, 536). -/
def exitCell : ℤ × ℤ := (-1, 0)

/-- One stack frame `(x, y, key, entry_dir, depth)` (line 584). -/
abbrev Frame := ℤ × ℤ × ℕ × ℕ × ℕ

/-- The mutable state of the traversal loop (lines 536-543 plus bookkeeping).
`stack` keeps the top frame at the head (Python appends and pops at the end of
its list).  `keys` aggregates the per-cell connectivity keys distributed in the
Python code over the `key` variable, the stack frames and `past_tiles`.
`visitedSeq`, `parent` and `dropped` are bookkeeping used by the theorems;
`accesses` records the raw `(row, col) = (y - grid_y0, x - grid_x0)` index pairs
of the `grid[...]` subscripts executed in the loop body. -/
structure MazeState where
  x : ℤ
  y : ℤ
  key : ℕ
  entryDir : ℕ
  depth : ℕ
  stack : List Frame
  notVisited : Finset (ℤ × ℤ)
  bk : ℕ
  sk : ℕ
  keys : ℤ × ℤ → ℕ
  visitedSeq : List (ℤ × ℤ)
  parent : ℤ × ℤ → Option (ℤ × ℤ)
  accesses : List (ℤ × ℤ)
  tracks : List ((ℤ × ℤ) × List Pt × ℕ)
  dropped : Bool

/-- The valid in-grid cells (line 506). -/
def validCells (g : GridCfg) : Finset (ℤ × ℤ) :=
  ((Finset.range g.cols) ×ˢ (Finset.range g.rows)).image
    (fun ij => (g.x0 + ij.1, g.y0 + ij.2)) |>.filter (fun c => g.valid c)

/-- Initial state (lines 506-543): `not_visited` is the valid cells minus the
exit cell; the cursor starts at the exit cell with `key = 0`,
`entry_dir = 0b0001`, empty stack. -/
def initState (g : GridCfg) : MazeState where
  x := -1
  y := 0
  key := 0
  entryDir := 1
  depth := 0
  stack := []
  notVisited := (validCells g).erase exitCell
  bk := 0
  sk := 0
  keys := fun _ => 0
  visitedSeq := []
  parent := fun _ => none
  accesses := []
  tracks := []
  dropped := false

/-- Python's subscript semantics for the two `grid[y - grid_y0][x - grid_x0]`
accesses of the dead-end branch: an index `i` with `-len ≤ i < 0` wraps to
`len + i`; `Int.emod` reproduces that for the index ranges that occur. -/
def lookupValid (g : GridCfg) (r c : ℤ) : Bool :=
  g.valid (g.x0 + Int.emod c g.cols, g.y0 + Int.emod r g.rows)

inductive StepResult
  | next (s : MazeState)
  | halt (s : MazeState)

/-- The candidates of the current cell (line 579's `iter_neighbors(x, y)`). -/
def candsOf (g : GridCfg) (s : MazeState) : List Cand :=
  iter_neighbors g.x0 g.y0 g.cols g.rows s.x s.y

/-- The first yielded unvisited candidate of this loop iteration, i.e. the
neighbor at which the `for` loop of lines 579-598 breaks (if any). -/
def pickOf (g : GridCfg) (O : Oracle) (s : MazeState) : Option Cand :=
  (skewed_random_iter (O.bias s.bk) (O.shuf s.sk) (candsOf g s) s.entryDir).find?
    (fun c => decide ((c.1, c.2.1) ∈ s.notVisited))

/-- Whether this iteration's shuffle is skipped: the generator's
`rnd_state.shuffle` only executes if the consumer asks for an element after the
biased branch's first match, so it is skipped exactly when the biased first
match is itself unvisited (the consumer breaks at it). -/
def shufSkippedOf (g : GridCfg) (O : Oracle) (s : MazeState) : Bool :=
  O.bias s.bk &&
    (match (candsOf g s).find? (fun c => c.2.2 == s.entryDir) with
     | some m => decide ((m.1, m.2.1) ∈ s.notVisited)
     | none => false)

/-- The shuffle counter after this iteration. -/
def skOf (g : GridCfg) (O : Oracle) (s : MazeState) : ℕ :=
  if shufSkippedOf g O s then s.sk else s.sk + 1

/-- Whether this iteration drops a candidate: biased branch taken, no candidate
matches `entry_dir`, and the candidate list is non-empty (its last element is
then removed unyielded). -/
def dropOf (g : GridCfg) (O : Oracle) (s : MazeState) : Bool :=
  O.bias s.bk && ((candsOf g s).find? (fun c => c.2.2 == s.entryDir)).isNone &&
    !(candsOf g s).isEmpty

/-- Lines 580-598: commit the connection to the chosen neighbor `c`, push the
current frame, mark `c` visited and move into it. -/
def visitUpdate (g : GridCfg) (O : Oracle) (s : MazeState) (c : Cand) : MazeState :=
  { s with
    x := c.1
    y := c.2.1
    key := reciprocal c.2.2
    entryDir := c.2.2
    depth := s.depth + 1
    stack := (s.x, s.y, s.key ||| c.2.2, c.2.2, s.depth) :: s.stack
    notVisited := s.notVisited.erase (c.1, c.2.1)
    bk := s.bk + 1
    sk := skOf g O s
    keys := fun z =>
      if z = (c.1, c.2.1) then reciprocal c.2.2
      else if z = (s.x, s.y) then s.key ||| c.2.2
      else s.keys z
    visitedSeq := s.visitedSeq ++ [(c.1, c.2.1)]
    parent := fun z => if z = (c.1, c.2.1) then some (s.x, s.y) else s.parent z
    accesses := s.accesses ++ [(c.2.1 - g.y0, c.1 - g.x0), (c.2.1 - g.y0, c.1 - g.x0)]
    dropped := s.dropped || dropOf g O s }

/-- Lines 599-613: dead end; record the final key and emit the cell's pattern
(each rendered segment checks `is_valid(grid[y - grid_y0][x - grid_x0])`). -/
def deadEndUpdate (g : GridCfg) (O : Oracle) (t chamfer : ℚ) (nTraces : ℕ)
    (s : MazeState) : MazeState :=
  let segs := Pattern.render t s.key nTraces chamfer
  { s with
    keys := fun z => if z = (s.x, s.y) then s.key else s.keys z
    accesses := s.accesses ++ segs.map (fun _ => (s.y - g.y0, s.x - g.x0))
    tracks := s.tracks ++
      (if lookupValid g (s.y - g.y0) (s.x - g.x0)
       then segs.map (fun sg => ((s.x, s.y), sg.1, sg.2)) else [])
    bk := s.bk + 1
    sk := skOf g O s
    dropped := s.dropped || dropOf g O s }

/-- Line 622: pop the parent frame and backtrack to it. -/
def popUpdate (s : MazeState) (f : Frame) (rest : List Frame) : MazeState :=
  { s with
    x := f.1
    y := f.2.1
    key := f.2.2.1
    entryDir := f.2.2.2.1
    depth := f.2.2.2.2
    stack := rest }

/-- One iteration of the `while not_visited or stack` loop (lines 578-622). -/
def mazeStep (g : GridCfg) (O : Oracle) (t chamfer : ℚ) (nTraces : ℕ)
    (s : MazeState) : StepResult :=
  if s.notVisited = ∅ ∧ s.stack = [] then .halt s
  else
    match pickOf g O s with
    | some c => .next (visitUpdate g O s c)
    | none =>
      match s.stack with
      | [] => .halt (deadEndUpdate g O t chamfer nTraces s)
      | f :: rest => .next (popUpdate (deadEndUpdate g O t chamfer nTraces s) f rest)

/-- Run the loop for at most `fuel` iterations; the Bool reports completion. -/
def mazeRun (g : GridCfg) (O : Oracle) (t chamfer : ℚ) (nTraces : ℕ) :
    ℕ → MazeState → MazeState × Bool
  | 0, s => (s, false)
  | fuel + 1, s =>
    match mazeStep g O t chamfer nTraces s with
    | .halt s' => (s', true)
    | .next s' => mazeRun g O t chamfer nTraces fuel s'

/-- The loop's termination measure. -/
def measureOf (s : MazeState) : ℕ := 2 * s.notVisited.card + s.stack.length

/-- Full traversal from the initial state, with enough fuel to terminate. -/
def mazeTraverse (g : GridCfg) (O : Oracle) (t chamfer : ℚ) (nTraces : ℕ) :
    MazeState :=
  (mazeRun g O t chamfer nTraces (measureOf (initState g) + 1) (initState g)).1

/-! ### Basic facts about the traversal pieces -/

lemma mazeRun_preserve {g : GridCfg} {O : Oracle} {t c : ℚ} {n : ℕ}
    (P : MazeState → Prop)
    (hnext : ∀ s s', P s → mazeStep g O t c n s = .next s' → P s')
    (hhalt : ∀ s s', P s → mazeStep g O t c n s = .halt s' → P s') :
    ∀ fuel s, P s → P (mazeRun g O t c n fuel s).1 := by
  intro fuel
  induction fuel with
  | zero => intro s h; exact h
  | succ fuel ih =>
    intro s h
    unfold mazeRun
    cases hs : mazeStep g O t c n s with
    | halt s' => exact hhalt s s' h hs
    | next s' => exact ih s' (hnext s s' h hs)

lemma skewed_subset {bias : Bool} {shuf : List Cand → List Cand}
    (hshuf : ∀ l, (shuf l).Perm l) (l : List Cand) (mask : ℕ) :
    ∀ c ∈ skewed_random_iter bias shuf l mask, c ∈ l := by
  intro c hc
  unfold skewed_random_iter at hc
  cases bias with
  | false => exact (hshuf l).mem_iff.mp (by simpa using hc)
  | true =>
    simp only [if_pos rfl] at hc
    cases hf : l.find? (fun c => c.2.2 == mask) with
    | some m =>
      rw [hf] at hc
      rcases List.mem_cons.mp hc with h | h
      · rw [h]; exact List.mem_of_find?_eq_some hf
      · exact List.erase_subset _ _ ((hshuf _).mem_iff.mp h)
    | none =>
      rw [hf] at hc
      cases hl : l.getLast? with
      | none => rw [hl] at hc; simp at hc
      | some d =>
        rw [hl] at hc
        exact List.erase_subset _ _ ((hshuf _).mem_iff.mp hc)

lemma pickOf_mem_nv {g : GridCfg} {O : Oracle} {s : MazeState} {c : Cand}
    (h : pickOf g O s = some c) : (c.1, c.2.1) ∈ s.notVisited := by
  have := List.find?_some h
  simpa using this

lemma pickOf_mem_cands {g : GridCfg} {O : Oracle} {s : MazeState} {c : Cand}
    (hO : OracleOK O) (h : pickOf g O s = some c) : c ∈ candsOf g s :=
  skewed_subset (fun l => hO s.sk l) (candsOf g s) s.entryDir c
    (List.mem_of_find?_eq_some h)

/-- Which candidates `iter_neighbors` yields. -/
lemma iter_neighbors_mem {x0 y0 : ℤ} {cols rows : ℕ} {x y : ℤ} {c : Cand}
    (h : c ∈ iter_neighbors x0 y0 cols rows x y) :
    (c = (x-1, y, 4) ∧ x0 < x) ∨ (c = (x+1, y, 1) ∧ x - x0 < cols) ∨
    (c = (x, y-1, 8) ∧ y0 < y) ∨ (c = (x, y+1, 2) ∧ y - y0 < rows) := by
  unfold iter_neighbors at h
  simp only [List.mem_append] at h
  rcases h with ((h | h) | h) | h <;>
    [skip; skip; skip; skip] <;>
    first
    | (left
       by_cases hc : x0 < x
       · rw [if_pos hc] at h; exact ⟨List.mem_singleton.mp h, hc⟩
       · rw [if_neg hc] at h; exact absurd h (List.not_mem_nil c))
    | (right; left
       by_cases hc : x - x0 < cols
       · rw [if_pos hc] at h; exact ⟨List.mem_singleton.mp h, hc⟩
       · rw [if_neg hc] at h; exact absurd h (List.not_mem_nil c))
    | (right; right; left
       by_cases hc : y0 < y
       · rw [if_pos hc] at h; exact ⟨List.mem_singleton.mp h, hc⟩
       · rw [if_neg hc] at h; exact absurd h (List.not_mem_nil c))
    | (right; right; right
       by_cases hc : y - y0 < rows
       · rw [if_pos hc] at h; exact ⟨List.mem_singleton.mp h, hc⟩
       · rw [if_neg hc] at h; exact absurd h (List.not_mem_nil c))

/-- Membership in `validCells`: exactly the valid cells within grid range. -/
lemma validCells_mem {g : GridCfg} {z : ℤ × ℤ} :
    z ∈ validCells g ↔
      (g.x0 ≤ z.1 ∧ z.1 < g.x0 + g.cols ∧ g.y0 ≤ z.2 ∧ z.2 < g.y0 + g.rows ∧
       g.valid z = true) := by
  unfold validCells
  rw [Finset.mem_filter, Finset.mem_image]
  constructor
  · rintro ⟨⟨⟨i, j⟩, hij, rfl⟩, hv⟩
    rw [Finset.mem_product, Finset.mem_range, Finset.mem_range] at hij
    refine ⟨by omega, by push_cast; omega, by omega, by push_cast; omega, hv⟩
  · rintro ⟨h1, h2, h3, h4, hv⟩
    refine ⟨⟨⟨(z.1 - g.x0).toNat, (z.2 - g.y0).toNat⟩, ?_, ?_⟩, hv⟩
    · rw [Finset.mem_product, Finset.mem_range, Finset.mem_range]
      omega
    · have hx : g.x0 + ((z.1 - g.x0).toNat : ℤ) = z.1 := by omega
      have hy : g.y0 + ((z.2 - g.y0).toNat : ℤ) = z.2 := by omega
      simp only [hx, hy]

/-- Every in-grid neighbor of the current cell appears among the candidates. -/
lemma iter_neighbors_covers {g : GridCfg} {x y : ℤ} {z : ℤ × ℤ}
    (hz : z ∈ validCells g)
    (hadj : z = (x-1, y) ∨ z = (x+1, y) ∨ z = (x, y-1) ∨ z = (x, y+1)) :
    ∃ d, (z.1, z.2, d) ∈ iter_neighbors g.x0 g.y0 g.cols g.rows x y := by
  have hb := validCells_mem.mp hz
  unfold iter_neighbors
  rcases hadj with rfl | rfl | rfl | rfl
  · exact ⟨4, by
      rw [if_pos (by simp only [] at hb; omega)]
      simp⟩
  · exact ⟨1, by
      rw [show (if g.x0 < x then [(x-1, y, (4:ℕ))] else []) ++
          (if x - g.x0 < g.cols then [(x+1, y, (1:ℕ))] else []) ++
          (if g.y0 < y then [(x, y-1, (8:ℕ))] else []) ++
          (if y - g.y0 < g.rows then [(x, y+1, (2:ℕ))] else []) =
          (if g.x0 < x then [(x-1, y, (4:ℕ))] else []) ++
          ((if x - g.x0 < g.cols then [(x+1, y, (1:ℕ))] else []) ++
          ((if g.y0 < y then [(x, y-1, (8:ℕ))] else []) ++
          (if y - g.y0 < g.rows then [(x, y+1, (2:ℕ))] else []))) from by
        simp [List.append_assoc]]
      refine List.mem_append_right _ (List.mem_append_left _ ?_)
      rw [if_pos (by simp only [] at hb; omega)]
      simp⟩
  · exact ⟨8, by
      refine List.mem_append_left _ (List.mem_append_right _ ?_)
      rw [if_pos (by simp only [] at hb; omega)]
      simp⟩
  · exact ⟨2, by
      refine List.mem_append_right _ ?_
      rw [if_pos (by simp only [] at hb; omega)]
      simp⟩

/-! ## Determinism (claim C2) -/

/-- The traversal as a function of the seed string: `random.Random(seed)` is a
deterministic function of the seed, abstracted by `seedRng`. -/
def traverseWithSeed (seedRng : String → Oracle) (g : GridCfg) (t chamfer : ℚ)
    (nTraces : ℕ) (seed : String) : MazeState :=
  mazeTraverse g (seedRng seed) t chamfer nTraces

/-- **C2.** Two runs of the traversal with the same seed string, the same grid
and mask (folded into `g`), and the same settings produce the identical
sequence of visited cells, the identical final per-cell key assignment, and
hence the identical emitted track list: the traversal is a deterministic
function of `(grid, mask, seed, randomness)` — the PRNG derived from the seed
is the only source of randomness. -/
theorem maze_determinism (seedRng : String → Oracle) (g : GridCfg)
    (t chamfer : ℚ) (nTraces : ℕ) (seed1 seed2 : String) (hseed : seed1 = seed2) :
    (traverseWithSeed seedRng g t chamfer nTraces seed1).visitedSeq =
      (traverseWithSeed seedRng g t chamfer nTraces seed2).visitedSeq ∧
    (traverseWithSeed seedRng g t chamfer nTraces seed1).keys =
      (traverseWithSeed seedRng g t chamfer nTraces seed2).keys ∧
    (traverseWithSeed seedRng g t chamfer nTraces seed1).tracks =
      (traverseWithSeed seedRng g t chamfer nTraces seed2).tracks := by
  subst hseed
  exact ⟨rfl, rfl, rfl⟩

/-- Witness for `maze_determinism` at a concrete seed and 1×1 grid. -/
theorem maze_determinism_witness :
    "test" = "test" ∧
    ((traverseWithSeed (fun _ => ⟨fun _ => false, fun _ l => l⟩)
        ⟨0, 0, 1, 1, fun _ => true⟩ 1 0 1 "test").visitedSeq =
      (traverseWithSeed (fun _ => ⟨fun _ => false, fun _ l => l⟩)
        ⟨0, 0, 1, 1, fun _ => true⟩ 1 0 1 "test").visitedSeq ∧
     (traverseWithSeed (fun _ => ⟨fun _ => false, fun _ l => l⟩)
        ⟨0, 0, 1, 1, fun _ => true⟩ 1 0 1 "test").keys =
      (traverseWithSeed (fun _ => ⟨fun _ => false, fun _ l => l⟩)
        ⟨0, 0, 1, 1, fun _ => true⟩ 1 0 1 "test").keys ∧
     (traverseWithSeed (fun _ => ⟨fun _ => false, fun _ l => l⟩)
        ⟨0, 0, 1, 1, fun _ => true⟩ 1 0 1 "test").tracks =
      (traverseWithSeed (fun _ => ⟨fun _ => false, fun _ l => l⟩)
        ⟨0, 0, 1, 1, fun _ => true⟩ 1 0 1 "test").tracks) :=
  ⟨rfl, maze_determinism (fun _ => ⟨fun _ => false, fun _ l => l⟩)
    ⟨0, 0, 1, 1, fun _ => true⟩ 1 0 1 "test" "test" rfl⟩

/-! ## Grid-access index bounds (claim C10) -/

/-- The `(row, col)` index pair `a` addresses an actual entry of the grid. -/
def accessInBounds (g : GridCfg) (a : ℤ × ℤ) : Prop :=
  0 ≤ a.1 ∧ a.1 < g.rows ∧ 0 ≤ a.2 ∧ a.2 < g.cols

/-- Invariant for C10: cursor and stack cells are the exit cell or valid grid
cells, unvisited cells are valid grid cells, and all logged accesses are in
bounds. -/
def AccInv (g : GridCfg) (s : MazeState) : Prop :=
  ((s.x, s.y) = exitCell ∨ (s.x, s.y) ∈ validCells g) ∧
  (∀ f ∈ s.stack, ((f.1, f.2.1) : ℤ × ℤ) = exitCell ∨ (f.1, f.2.1) ∈ validCells g) ∧
  s.notVisited ⊆ validCells g ∧
  (∀ a ∈ s.accesses, accessInBounds g a)

lemma cell_access_bounds {g : GridCfg} {z : ℤ × ℤ}
    (hx : g.x0 ≤ -1) (hx2 : (-1:ℤ) < g.x0 + g.cols)
    (hy : g.y0 ≤ 0) (hy2 : (0:ℤ) < g.y0 + g.rows)
    (hz : z = exitCell ∨ z ∈ validCells g) :
    accessInBounds g (z.2 - g.y0, z.1 - g.x0) := by
  rcases hz with rfl | hz
  · exact ⟨by simp [exitCell]; omega, by simp [exitCell]; omega,
      by simp [exitCell]; omega, by simp [exitCell]; omega⟩
  · have := validCells_mem.mp hz
    exact ⟨by omega, by omega, by omega, by omega⟩

lemma accInv_step {g : GridCfg} {O : Oracle} {t c : ℚ} {n : ℕ}
    (hx : g.x0 ≤ -1) (hx2 : (-1:ℤ) < g.x0 + g.cols)
    (hy : g.y0 ≤ 0) (hy2 : (0:ℤ) < g.y0 + g.rows) :
    ∀ s s', AccInv g s →
      (mazeStep g O t c n s = .next s' ∨ mazeStep g O t c n s = .halt s') →
      AccInv g s' := by
  intro s s' hInv hstep
  obtain ⟨hcur, hstk, hnv, hacc⟩ := hInv
  have hdead : AccInv g (deadEndUpdate g O t c n s) := by
    refine ⟨hcur, hstk, hnv, ?_⟩
    intro a ha
    simp only [deadEndUpdate, List.mem_append] at ha
    rcases ha with ha | ha
    · exact hacc a ha
    · rcases List.mem_map.mp ha with ⟨_, _, rfl⟩
      exact cell_access_bounds hx hx2 hy hy2 hcur
  unfold mazeStep at hstep
  by_cases hdone : s.notVisited = ∅ ∧ s.stack = []
  · rw [if_pos hdone] at hstep
    rcases hstep with hstep | hstep
    · exact absurd hstep (by simp)
    · cases hstep; exact ⟨hcur, hstk, hnv, hacc⟩
  · rw [if_neg hdone] at hstep
    cases hpick : pickOf g O s with
    | some cand =>
      rw [hpick] at hstep
      rcases hstep with hstep | hstep
      · cases hstep
        have hmem : (cand.1, cand.2.1) ∈ validCells g := hnv (pickOf_mem_nv hpick)
        refine ⟨Or.inr hmem, ?_, ?_, ?_⟩
        · intro f hf
          rcases List.mem_cons.mp hf with rfl | hf
          · exact hcur
          · exact hstk f hf
        · exact fun z hz => hnv (Finset.mem_of_mem_erase hz)
        · intro a ha
          simp only [visitUpdate, List.mem_append, List.mem_cons,
            List.not_mem_nil, or_false] at ha
          rcases ha with ha | ha | ha
          · exact hacc a ha
          · rw [ha]; exact cell_access_bounds hx hx2 hy hy2 (Or.inr hmem)
          · rw [ha]; exact cell_access_bounds hx hx2 hy hy2 (Or.inr hmem)
      · exact absurd hstep (by simp)
    | none =>
      rw [hpick] at hstep
      cases hsk : s.stack with
      | nil =>
        rw [hsk] at hstep
        rcases hstep with hstep | hstep
        · exact absurd hstep (by simp)
        · cases hstep; exact hdead
      | cons f rest =>
        rw [hsk] at hstep
        rcases hstep with hstep | hstep
        · cases hstep
          obtain ⟨hc', hs', hn', ha'⟩ := hdead
          refine ⟨hstk f (by rw [hsk]; exact List.mem_cons_self f rest), ?_, hn', ha'⟩
          intro f' hf'
          exact hstk f' (by rw [hsk]; exact List.mem_cons_of_mem f hf')
        · exact absurd hstep (by simp)

/-- **C10 (amended).** Provided the exit cell `(-1, 0)` lies within the grid's
index range (`grid_x0 ≤ -1 < grid_x0 + grid_cols` and
`grid_y0 ≤ 0 < grid_y0 + grid_rows`), every `grid[y - grid_y0][x - grid_x0]`
access performed by the traversal loop — in the neighbor-visiting branch and in
the dead-end emission branch — uses in-bounds, non-negative indices, at every
step of the run.  (Without that proviso the claim is false: see the
counterexample, where the dead-end branch at the exit cell produces column
index `-1`, which Python silently wraps to the last cell of the row.) -/
theorem grid_access_in_bounds (g : GridCfg) (O : Oracle) (t c : ℚ) (n : ℕ)
    (hx : g.x0 ≤ -1) (hx2 : (-1:ℤ) < g.x0 + g.cols)
    (hy : g.y0 ≤ 0) (hy2 : (0:ℤ) < g.y0 + g.rows) :
    ∀ fuel, ∀ a ∈ ((mazeRun g O t c n fuel (initState g)).1).accesses,
      0 ≤ a.1 ∧ a.1 < g.rows ∧ 0 ≤ a.2 ∧ a.2 < g.cols := by
  intro fuel
  have hinit : AccInv g (initState g) := by
    refine ⟨Or.inl rfl, by simp [initState], ?_, by simp [initState]⟩
    intro z hz
    exact Finset.mem_of_mem_erase hz
  have := mazeRun_preserve (g := g) (O := O) (t := t) (c := c) (n := n) (AccInv g)
    (fun s s' hP hn => accInv_step hx hx2 hy hy2 s s' hP (Or.inl hn))
    (fun s s' hP hh => accInv_step hx hx2 hy hy2 s s' hP (Or.inr hh))
    fuel (initState g) hinit
  exact this.2.2.2

/-- Grid for the C10 counterexample: origin `(0, 0)` (so the exit cell `(-1,0)`
is outside the index range), 3 columns, 1 row, valid cells `(0,0)` and `(2,0)`
with `(1,0)` invalid (disconnected mask). -/
def gridC10 : GridCfg :=
  ⟨0, 0, 3, 1, fun z => decide (z ∈ ([(0,0), (2,0)] : List (ℤ × ℤ)))⟩

/-- PRNG oracle for the C10 counterexample: unbiased draws, identity shuffles. -/
def oracleC10 : Oracle := ⟨fun _ => false, fun _ l => l⟩

/-- **C10 counterexample.** With grid origin `(0, 0)`, the dead-end emission
branch executed at the exit cell `(-1, 0)` accesses
`grid[0 - grid_y0][-1 - grid_x0] = grid[0][-1]`: a negative column index, so
the claim's "in-bounds, non-negative indices ... for every grid origin" is
false (Python wraps `-1` to the last cell of the row and checks the wrong
cell's validity). -/
theorem grid_access_counterexample :
    ((0 : ℤ), (-1 : ℤ)) ∈ (mazeTraverse gridC10 oracleC10 1 0 1).accesses ∧
    ¬ (0 : ℤ) ≤ (-1 : ℤ) := by
  exact ⟨by decide, by decide⟩

/-- Witness for `grid_access_in_bounds` on a concrete 2×1 grid containing the
exit cell. -/
theorem grid_access_in_bounds_witness :
    ((-2 : ℤ) ≤ -1 ∧ (-1:ℤ) < -2 + (2:ℕ) ∧ (0:ℤ) ≤ 0 ∧ (0:ℤ) < 0 + (1:ℕ)) ∧
    (∀ a ∈ ((mazeRun ⟨-2, 0, 2, 1, fun _ => true⟩ oracleC10 1 0 1 9
        (initState ⟨-2, 0, 2, 1, fun _ => true⟩)).1).accesses,
      0 ≤ a.1 ∧ a.1 < (1:ℕ) ∧ 0 ≤ a.2 ∧ a.2 < (2:ℕ)) :=
  ⟨⟨by decide, by decide, by decide, by decide⟩,
    grid_access_in_bounds ⟨-2, 0, 2, 1, fun _ => true⟩ oracleC10 1 0 1
      (by decide) (by decide) (by decide) (by decide) 9⟩

/-! ## Direction algebra (claims C1, C7) -/

/-- The four direction bit masks `0b0001=East, 0b0010=South, 0b0100=West,
0b1000=North`. -/
def dirMasks : List ℕ := [1, 2, 4, 8]

/-- The grid displacement of a direction bit (grid `y` grows southward). -/
def dirStep (d : ℕ) : ℤ × ℤ :=
  if d = 1 then (1, 0)
  else if d = 2 then (0, 1)
  else if d = 4 then (-1, 0)
  else if d = 8 then (0, -1)
  else (0, 0)

/-- The neighbor of `z` in direction `d`. -/
def adjCell (z : ℤ × ℤ) (d : ℕ) : ℤ × ℤ := (z.1 + (dirStep d).1, z.2 + (dirStep d).2)

/-- `k` has the direction bit `d` set. -/
def hasDir (k d : ℕ) : Prop := k &&& d ≠ 0

/-- **C7 (bit involution part).** `reciprocal` is an involution on the four
direction bits. -/
lemma reciprocal_involutive : ∀ d ∈ dirMasks, reciprocal (reciprocal d) = d := by
  decide

lemma adjCell_reciprocal {z : ℤ × ℤ} {d : ℕ} (hd : d ∈ dirMasks) :
    adjCell (adjCell z d) (reciprocal d) = z := by
  fin_cases hd <;> simp [adjCell, dirStep, reciprocal]

lemma adjCell_ne {z : ℤ × ℤ} {d : ℕ} (hd : d ∈ dirMasks) : adjCell z d ≠ z := by
  fin_cases hd <;> simp [adjCell, dirStep, Prod.ext_iff]

lemma or_eq_zero_parts {a b : ℕ} (h : a ||| b = 0) : a = 0 ∧ b = 0 := by
  constructor <;>
    refine Nat.zero_of_testBit_eq_false (fun i => ?_) <;>
    [have hb := congrArg (fun n => Nat.testBit n i) h;
     have hb := congrArg (fun n => Nat.testBit n i) h] <;>
    simp only [Nat.testBit_or, Nat.zero_testBit, Bool.or_eq_false_iff] at hb <;>
    [exact hb.1; exact hb.2]

lemma hasDir_or {k d m : ℕ} (h : hasDir (k ||| m) d) : hasDir k d ∨ hasDir m d := by
  unfold hasDir at h ⊢
  rw [Nat.and_distrib_right] at h
  by_contra hc
  push_neg at hc
  rw [hc.1, hc.2] at h
  exact h rfl

lemma hasDir_or_left {k d m : ℕ} (h : hasDir k d) : hasDir (k ||| m) d := by
  unfold hasDir at h ⊢
  rw [Nat.and_distrib_right]
  intro hc
  exact h (or_eq_zero_parts hc).1

lemma hasDir_or_right {k d m : ℕ} (h : hasDir m d) : hasDir (k ||| m) d := by
  unfold hasDir at h ⊢
  rw [Nat.and_distrib_right]
  intro hc
  exact h (or_eq_zero_parts hc).2

/-- Among the four direction masks, a single mask `m` has exactly its own bit. -/
lemma hasDir_mask {m d : ℕ} (hm : m ∈ dirMasks) (hd : d ∈ dirMasks) :
    hasDir m d ↔ m = d := by
  fin_cases hm <;> fin_cases hd <;> simp [hasDir] <;> decide

lemma hasDir_zero {d : ℕ} : ¬ hasDir 0 d := by
  simp [hasDir]

/-! ## Master traversal invariant (claims C1, C7) -/

/-- The cells visited so far: valid non-exit cells removed from `not_visited`. -/
def visitedF (g : GridCfg) (s : MazeState) : Finset (ℤ × ℤ) :=
  ((validCells g).erase exitCell) \ s.notVisited

/-- The cells held in stack frames, top first. -/
def stackCells (s : MazeState) : List (ℤ × ℤ) :=
  s.stack.map (fun f => (f.1, f.2.1))

/-- The stack is the path back to the exit cell: each frame's cell steps to the
cell above it (the current cell for the top frame) via the frame's stored
direction bit, and the bottom of the stack is the exit cell. -/
def StackChain : List Frame → ℤ × ℤ → Prop
  | [], cur => cur = exitCell
  | f :: rest, cur => adjCell (f.1, f.2.1) f.2.2.2.1 = cur ∧ StackChain rest (f.1, f.2.1)

/-- Visit order of a cell: its index in `exitCell :: visitedSeq`. -/
def idxOf : List (ℤ × ℤ) → (ℤ × ℤ) → ℕ
  | [], _ => 0
  | a :: l, z => if a = z then 0 else idxOf l z + 1

def ordOf (s : MazeState) (z : ℤ × ℤ) : ℕ := idxOf (exitCell :: s.visitedSeq) z

lemma idxOf_append_of_mem {z : ℤ × ℤ} {l1 : List (ℤ × ℤ)} (l2 : List (ℤ × ℤ))
    (h : z ∈ l1) : idxOf (l1 ++ l2) z = idxOf l1 z := by
  induction l1 with
  | nil => simp at h
  | cons a l ih =>
    by_cases ha : a = z
    · simp [idxOf, ha]
    · rcases List.mem_cons.mp h with h | h
      · exact absurd h.symm ha
      · simp [idxOf, ha, ih h]

lemma idxOf_lt_length {z : ℤ × ℤ} {l : List (ℤ × ℤ)} (h : z ∈ l) :
    idxOf l z < l.length := by
  induction l with
  | nil => simp at h
  | cons a l ih =>
    by_cases ha : a = z
    · simp [idxOf, ha]
    · rcases List.mem_cons.mp h with h | h
      · exact absurd h.symm ha
      · simp only [idxOf, if_neg ha, List.length_cons]
        exact Nat.succ_lt_succ (ih h)

lemma idxOf_append_self {z : ℤ × ℤ} {l : List (ℤ × ℤ)} (h : z ∉ l) :
    idxOf (l ++ [z]) z = l.length := by
  induction l with
  | nil => simp [idxOf]
  | cons a l ih =>
    have ha : a ≠ z := fun he => h (by rw [← he]; exact List.mem_cons_self a l)
    simp only [List.cons_append, idxOf, if_neg ha, List.length_cons, List.append_eq]
    rw [ih (fun hm => h (List.mem_cons_of_mem a hm))]

lemma visitedF_erase {g : GridCfg} {s : MazeState} {c : ℤ × ℤ}
    (hc : c ∈ s.notVisited) (hsub : s.notVisited ⊆ (validCells g).erase exitCell) :
    ((validCells g).erase exitCell) \ (s.notVisited.erase c)
      = insert c (visitedF g s) :=
  Finset.sdiff_erase (hsub hc)

/-- The chosen candidate is a real neighbor: its direction bit is one of the
four masks and its coordinates are the current cell displaced by that bit. -/
lemma pick_geometry {g : GridCfg} {O : Oracle} {s : MazeState} {c : Cand}
    (hO : OracleOK O) (h : pickOf g O s = some c) :
    c.2.2 ∈ dirMasks ∧ (c.1, c.2.1) = adjCell (s.x, s.y) c.2.2 := by
  have hm := iter_neighbors_mem (pickOf_mem_cands hO h)
  rcases hm with ⟨hc, _⟩ | ⟨hc, _⟩ | ⟨hc, _⟩ | ⟨hc, _⟩ <;> subst hc <;>
    refine ⟨by simp [dirMasks], ?_⟩ <;> simp [adjCell, dirStep, Prod.ext_iff] <;> omega

lemma perm_cons_erase_cand {a : Cand} {l : List Cand} (h : a ∈ l) :
    l.Perm (a :: l.erase a) := by
  induction l with
  | nil => simp at h
  | cons b l ih =>
    by_cases hba : b = a
    · subst hba
      rw [List.erase_cons_head]
    · rw [List.erase_cons_tail (by simp [hba])]
      have hal : a ∈ l := by
        rcases List.mem_cons.mp h with h1 | h1
        · exact absurd h1.symm hba
        · exact h1
      exact ((ih hal).cons b).trans (List.Perm.swap a b _)

/-- When no candidate is dropped and the shuffles are permutations, the yielded
candidates are a permutation of `iter_neighbors`' output. -/
lemma skewed_perm {bias : Bool} {shuf : List Cand → List Cand}
    (hshuf : ∀ l, (shuf l).Perm l) (l : List Cand) (mask : ℕ)
    (hnodrop : ¬(bias = true ∧ (l.find? (fun c => c.2.2 == mask)).isNone = true
        ∧ l ≠ [])) :
    (skewed_random_iter bias shuf l mask).Perm l := by
  unfold skewed_random_iter
  cases bias with
  | false => exact hshuf l
  | true =>
    simp only [if_pos rfl]
    cases hf : l.find? (fun c => c.2.2 == mask) with
    | some m =>
      exact ((hshuf (l.erase m)).cons m).trans
        (perm_cons_erase_cand (List.mem_of_find?_eq_some hf)).symm
    | none =>
      have hl : l = [] := by
        by_contra hne
        exact hnodrop ⟨rfl, by rw [hf]; rfl, hne⟩
      subst hl
      simp

/-- If the loop declares a dead end without having dropped a candidate, no
candidate of the current cell is unvisited. -/
lemma pickOf_none {g : GridCfg} {O : Oracle} {s : MazeState}
    (hO : OracleOK O) (h : pickOf g O s = none) (hdrop : dropOf g O s = false) :
    ∀ c ∈ candsOf g s, (c.1, c.2.1) ∉ s.notVisited := by
  intro c hc hmem
  have hperm : (skewed_random_iter (O.bias s.bk) (O.shuf s.sk) (candsOf g s)
      s.entryDir).Perm (candsOf g s) := by
    refine skewed_perm (fun l => hO s.sk l) _ _ ?_
    rintro ⟨hb, hf, hne⟩
    unfold dropOf at hdrop
    rw [hb, hf] at hdrop
    simp only [Bool.true_and, Bool.and_eq_false_imp] at hdrop
    exact absurd (by simpa using hdrop) hne
  have hc' : c ∈ skewed_random_iter (O.bias s.bk) (O.shuf s.sk) (candsOf g s)
      s.entryDir := hperm.mem_iff.mpr hc
  have := List.find?_eq_none.mp h c hc'
  simp [hmem] at this

/-- The master invariant of the traversal loop. -/
structure Inv (g : GridCfg) (s : MazeState) : Prop where
  nvSub : s.notVisited ⊆ (validCells g).erase exitCell
  keyCur : s.keys (s.x, s.y) = s.key
  keyStack : ∀ f ∈ s.stack, s.keys (f.1, f.2.1) = f.2.2.1
  curV : (s.x, s.y) = exitCell ∨ (s.x, s.y) ∈ visitedF g s
  stackV : ∀ f ∈ s.stack, ((f.1, f.2.1) : ℤ × ℤ) = exitCell ∨ (f.1, f.2.1) ∈ visitedF g s
  keysOut : ∀ z, z ≠ exitCell → z ∉ visitedF g s → s.keys z = 0
  bitsTarget : ∀ z, ∀ d ∈ dirMasks, hasDir (s.keys z) d → adjCell z d ∉ s.notVisited
  recip : ∀ z, ∀ d ∈ dirMasks, hasDir (s.keys z) d →
    hasDir (s.keys (adjCell z d)) (reciprocal d)
  pathNodup : (((s.x, s.y) : ℤ × ℤ) :: stackCells s).Nodup
  chain : StackChain s.stack (s.x, s.y)
  parentExit : s.parent exitCell = none
  parentDom : ∀ z, (s.parent z).isSome ↔ z ∈ visitedF g s
  parentProp : ∀ z p, s.parent z = some p →
    (p = exitCell ∨ p ∈ visitedF g s) ∧
    (∃ d ∈ dirMasks, adjCell p d = z ∧ hasDir (s.keys p) d ∧
      hasDir (s.keys z) (reciprocal d)) ∧
    ordOf s p < ordOf s z
  edgeParent : ∀ z, ∀ d ∈ dirMasks, hasDir (s.keys z) d →
    s.parent (adjCell z d) = some z ∨ s.parent z = some (adjCell z d)
  seqNodup : (exitCell :: s.visitedSeq).Nodup
  seqSet : s.visitedSeq.toFinset = visitedF g s
  finished : s.dropped = false → ∀ z, z = exitCell ∨ z ∈ visitedF g s →
    (z = (s.x, s.y) ∨ z ∈ stackCells s) ∨
    ∀ c ∈ iter_neighbors g.x0 g.y0 g.cols g.rows z.1 z.2, (c.1, c.2.1) ∉ s.notVisited

lemma exit_not_mem_nv {g : GridCfg} {s : MazeState} (h : Inv g s) :
    exitCell ∉ s.notVisited := by
  intro hc
  exact absurd (h.nvSub hc) (by simp)

lemma visitedF_not_mem_nv {g : GridCfg} {s : MazeState} {z : ℤ × ℤ}
    (h : z ∈ visitedF g s) : z ∉ s.notVisited :=
  (Finset.mem_sdiff.mp h).2

lemma Inv.curNotNV {g : GridCfg} {s : MazeState} (h : Inv g s) :
    (s.x, s.y) ∉ s.notVisited := by
  rcases h.curV with hc | hc
  · rw [hc]; exact exit_not_mem_nv h
  · exact visitedF_not_mem_nv hc

lemma Inv.stackNotNV {g : GridCfg} {s : MazeState} (h : Inv g s) :
    ∀ f ∈ s.stack, ((f.1, f.2.1) : ℤ × ℤ) ∉ s.notVisited := by
  intro f hf
  rcases h.stackV f hf with hc | hc
  · rw [hc]; exact exit_not_mem_nv h
  · exact visitedF_not_mem_nv hc

lemma Inv.keysNV {g : GridCfg} {s : MazeState} (h : Inv g s) {z : ℤ × ℤ}
    (hz : z ∈ s.notVisited) : s.keys z = 0 := by
  have h1 := Finset.mem_erase.mp (h.nvSub hz)
  exact h.keysOut z h1.1 (fun hv => visitedF_not_mem_nv hv hz)

lemma reciprocal_mem {d : ℕ} (hd : d ∈ dirMasks) : reciprocal d ∈ dirMasks := by
  fin_cases hd <;> decide

lemma hasDir_self {d : ℕ} (hd : d ∈ dirMasks) : hasDir d d := by
  fin_cases hd <;> simp [hasDir]

/-- The initial state satisfies the invariant. -/
lemma inv_init (g : GridCfg) : Inv g (initState g) := by
  constructor
  case nvSub => exact fun z hz => hz
  case keyCur => rfl
  case keyStack => intro f hf; simp [initState] at hf
  case curV => exact Or.inl rfl
  case stackV => intro f hf; simp [initState] at hf
  case keysOut => intro z _ _; rfl
  case bitsTarget => intro z d _ hz; exact absurd hz hasDir_zero
  case recip => intro z d _ hz; exact absurd hz hasDir_zero
  case pathNodup => simp [stackCells, initState, exitCell]
  case chain => rfl
  case parentExit => rfl
  case parentDom =>
    intro z
    simp [initState, visitedF, Finset.sdiff_self]
  case parentProp => intro z p hp; simp [initState] at hp
  case edgeParent => intro z d _ hz; exact absurd hz hasDir_zero
  case seqNodup => simp [initState]
  case seqSet => simp [initState, visitedF, Finset.sdiff_self]
  case finished =>
    intro _ z hz
    rcases hz with rfl | hz
    · exact Or.inl (Or.inl rfl)
    · simp [initState, visitedF, Finset.sdiff_self] at hz

lemma deadEnd_keys_eq {g : GridCfg} {O : Oracle} {t c : ℚ} {n : ℕ} {s : MazeState}
    (h : s.keys (s.x, s.y) = s.key) :
    (deadEndUpdate g O t c n s).keys = s.keys := by
  funext z
  show (if z = (s.x, s.y) then s.key else s.keys z) = s.keys z
  by_cases hz : z = (s.x, s.y)
  · rw [if_pos hz, hz, h]
  · rw [if_neg hz]

lemma inv_deadEnd {g : GridCfg} {O : Oracle} {t c : ℚ} {n : ℕ} {s : MazeState}
    (hInv : Inv g s) : Inv g (deadEndUpdate g O t c n s) := by
  have hk := deadEnd_keys_eq (g := g) (O := O) (t := t) (c := c) (n := n) hInv.keyCur
  obtain ⟨h1, h2, h3, h4, h5, h6, h7, h8, h9, h10, h11, h12, h13, h14, h15, h16, h17⟩ := hInv
  refine ⟨h1, ?_, ?_, h4, h5, ?_, ?_, ?_, h9, h10, h11, h12, ?_, ?_, h15, h16, ?_⟩
  · rw [hk]; exact h2
  · intro f hf; rw [hk]; exact h3 f hf
  · intro z hz hv; rw [hk]; exact h6 z hz hv
  · intro z d hd hz; rw [hk] at hz; exact h7 z d hd hz
  · intro z d hd hz; rw [hk] at hz ⊢; exact h8 z d hd hz
  · intro z p hp
    rw [hk]
    exact h13 z p hp
  · intro z d hd hz; rw [hk] at hz; exact h14 z d hd hz
  · intro hdrop
    have : s.dropped = false := by
      have : (s.dropped || dropOf g O s) = false := hdrop
      exact (Bool.or_eq_false_iff.mp this).1
    exact h17 this

lemma inv_pop {g : GridCfg} {O : Oracle} {t c : ℚ} {n : ℕ} {s : MazeState}
    {f : Frame} {rest : List Frame}
    (hO : OracleOK O) (hInv : Inv g s) (hpick : pickOf g O s = none)
    (hstk : s.stack = f :: rest) :
    Inv g (popUpdate (deadEndUpdate g O t c n s) f rest) := by
  have hde := inv_deadEnd (t := t) (c := c) (n := n) (O := O) hInv
  have hkeq := deadEnd_keys_eq (g := g) (O := O) (t := t) (c := c) (n := n) hInv.keyCur
  constructor
  case nvSub => exact hInv.nvSub
  case keyCur =>
    show (deadEndUpdate g O t c n s).keys (f.1, f.2.1) = f.2.2.1
    rw [hkeq]
    exact hInv.keyStack f (by rw [hstk]; exact List.mem_cons_self f rest)
  case keyStack =>
    intro f' hf'
    show (deadEndUpdate g O t c n s).keys (f'.1, f'.2.1) = f'.2.2.1
    rw [hkeq]
    exact hInv.keyStack f' (by rw [hstk]; exact List.mem_cons_of_mem f hf')
  case curV => exact hInv.stackV f (by rw [hstk]; exact List.mem_cons_self f rest)
  case stackV =>
    intro f' hf'
    exact hInv.stackV f' (by rw [hstk]; exact List.mem_cons_of_mem f hf')
  case keysOut =>
    intro z hz hv
    show (deadEndUpdate g O t c n s).keys z = 0
    rw [hkeq]
    exact hInv.keysOut z hz hv
  case bitsTarget =>
    intro z d hd hz
    rw [show (popUpdate (deadEndUpdate g O t c n s) f rest).keys
      = (deadEndUpdate g O t c n s).keys from rfl, hkeq] at hz
    exact hInv.bitsTarget z d hd hz
  case recip =>
    intro z d hd hz
    rw [show (popUpdate (deadEndUpdate g O t c n s) f rest).keys
      = (deadEndUpdate g O t c n s).keys from rfl, hkeq] at hz ⊢
    exact hInv.recip z d hd hz
  case pathNodup =>
    have := hInv.pathNodup
    simp only [stackCells, hstk, List.map_cons] at this
    exact this.of_cons
  case chain =>
    have := hInv.chain
    rw [hstk] at this
    exact this.2
  case parentExit => exact hInv.parentExit
  case parentDom => exact hInv.parentDom
  case parentProp =>
    intro z p hp
    rw [show (popUpdate (deadEndUpdate g O t c n s) f rest).keys
      = (deadEndUpdate g O t c n s).keys from rfl, hkeq]
    exact hInv.parentProp z p hp
  case edgeParent =>
    intro z d hd hz
    rw [show (popUpdate (deadEndUpdate g O t c n s) f rest).keys
      = (deadEndUpdate g O t c n s).keys from rfl, hkeq] at hz
    exact hInv.edgeParent z d hd hz
  case seqNodup => exact hInv.seqNodup
  case seqSet => exact hInv.seqSet
  case finished =>
    intro hdrop z hz
    have hsd : s.dropped = false ∧ dropOf g O s = false := by
      have : (s.dropped || dropOf g O s) = false := hdrop
      exact Bool.or_eq_false_iff.mp this
    rcases hInv.finished hsd.1 z hz with (hzc | hzs) | hzf
    · -- the old current cell is now finished: its candidates are all visited
      refine Or.inr ?_
      intro cd hcd
      subst hzc
      exact pickOf_none hO hpick hsd.2 cd hcd
    · -- a cell of the old stack: top frame becomes current, rest stays stacked
      simp only [stackCells, hstk, List.map_cons, List.mem_cons] at hzs
      rcases hzs with hzf | hzs
      · exact Or.inl (Or.inl hzf)
      · exact Or.inl (Or.inr (by simpa [stackCells] using hzs))
    · exact Or.inr hzf

lemma inv_visit {g : GridCfg} {O : Oracle} {s : MazeState} {c : Cand}
    (hO : OracleOK O) (hInv : Inv g s) (hpick : pickOf g O s = some c) :
    Inv g (visitUpdate g O s c) := by
  obtain ⟨hd, hgeom⟩ := pick_geometry hO hpick
  have hnv : (c.1, c.2.1) ∈ s.notVisited := pickOf_mem_nv hpick
  have hne : ((c.1, c.2.1) : ℤ × ℤ) ≠ (s.x, s.y) := by
    intro h
    exact hInv.curNotNV (by rw [← h]; exact hnv)
  have hback : adjCell (c.1, c.2.1) (reciprocal c.2.2) = (s.x, s.y) := by
    rw [hgeom]; exact adjCell_reciprocal hd
  have hnewNE : ((c.1, c.2.1) : ℤ × ℤ) ∉ visitedF g s :=
    fun h => (Finset.mem_sdiff.mp h).2 hnv
  have hnewNexit : ((c.1, c.2.1) : ℤ × ℤ) ≠ exitCell :=
    (Finset.mem_erase.mp (hInv.nvSub hnv)).1
  have hnotmem : ((c.1, c.2.1) : ℤ × ℤ) ∉ exitCell :: s.visitedSeq := by
    intro h
    rcases List.mem_cons.mp h with h | h
    · exact hnewNexit h
    · exact hnewNE (by rw [← hInv.seqSet]; exact List.mem_toFinset.mpr h)
  have hnewNstack : ((c.1, c.2.1) : ℤ × ℤ) ∉ stackCells s := by
    intro hmem
    simp only [stackCells, List.mem_map] at hmem
    obtain ⟨f, hf, hfe⟩ := hmem
    exact hInv.stackNotNV f hf (by rw [hfe]; exact hnv)
  have hVF : visitedF g (visitUpdate g O s c)
      = insert (c.1, c.2.1) (visitedF g s) := visitedF_erase hnv hInv.nvSub
  have hKeval : ∀ z : ℤ × ℤ, (visitUpdate g O s c).keys z
      = if z = (c.1, c.2.1) then reciprocal c.2.2
        else if z = (s.x, s.y) then s.key ||| c.2.2 else s.keys z := fun _ => rfl
  have hPeval : ∀ z : ℤ × ℤ, (visitUpdate g O s c).parent z
      = if z = (c.1, c.2.1) then some (s.x, s.y) else s.parent z := fun _ => rfl
  have hKnew : (visitUpdate g O s c).keys (c.1, c.2.1) = reciprocal c.2.2 := by
    rw [hKeval, if_pos rfl]
  have hKcur : (visitUpdate g O s c).keys (s.x, s.y) = s.key ||| c.2.2 := by
    rw [hKeval, if_neg (Ne.symm hne), if_pos rfl]
  have hKother : ∀ z : ℤ × ℤ, z ≠ (c.1, c.2.1) → z ≠ (s.x, s.y) →
      (visitUpdate g O s c).keys z = s.keys z := by
    intro z h1 h2
    rw [hKeval, if_neg h1, if_neg h2]
  have hmono : ∀ (w : ℤ × ℤ) (e : ℕ), w ≠ (c.1, c.2.1) → hasDir (s.keys w) e →
      hasDir ((visitUpdate g O s c).keys w) e := by
    intro w e hw he
    rw [hKeval, if_neg hw]
    by_cases hwc : w = (s.x, s.y)
    · rw [if_pos hwc]
      rw [hwc, hInv.keyCur] at he
      exact hasDir_or_left he
    · rw [if_neg hwc]; exact he
  have hmemSeq : ∀ z : ℤ × ℤ, z = exitCell ∨ z ∈ visitedF g s →
      z ∈ exitCell :: s.visitedSeq := by
    intro z hz
    rcases hz with rfl | hz
    · exact List.mem_cons_self _ _
    · refine List.mem_cons_of_mem _ ?_
      rw [← hInv.seqSet] at hz
      exact List.mem_toFinset.mp hz
  have hOrdOld : ∀ z ∈ exitCell :: s.visitedSeq,
      ordOf (visitUpdate g O s c) z = ordOf s z ∧
        ordOf s z < (exitCell :: s.visitedSeq).length := by
    intro z hzm
    constructor
    · show idxOf (exitCell :: (s.visitedSeq ++ [(c.1, c.2.1)])) z
        = idxOf (exitCell :: s.visitedSeq) z
      rw [← List.cons_append]
      exact idxOf_append_of_mem _ hzm
    · exact idxOf_lt_length hzm
  have hOrdNew : ordOf (visitUpdate g O s c) (c.1, c.2.1)
      = (exitCell :: s.visitedSeq).length := by
    show idxOf (exitCell :: (s.visitedSeq ++ [(c.1, c.2.1)])) (c.1, c.2.1) = _
    rw [← List.cons_append]
    exact idxOf_append_self hnotmem
  constructor
  case nvSub =>
    intro z hz
    exact hInv.nvSub (Finset.mem_of_mem_erase hz)
  case keyCur => exact hKnew
  case keyStack =>
    intro f hf
    rcases List.mem_cons.mp hf with rfl | hf'
    · exact hKcur
    · have h1 : ((f.1, f.2.1) : ℤ × ℤ) ≠ (c.1, c.2.1) :=
        fun h => hInv.stackNotNV f hf' (by rw [h]; exact hnv)
      have h2 : ((f.1, f.2.1) : ℤ × ℤ) ≠ (s.x, s.y) := by
        intro h
        exact (List.nodup_cons.mp hInv.pathNodup).1
          (by rw [← h]; exact List.mem_map_of_mem _ hf')
      show (visitUpdate g O s c).keys (f.1, f.2.1) = f.2.2.1
      rw [hKother _ h1 h2]
      exact hInv.keyStack f hf'
  case curV =>
    refine Or.inr ?_
    show ((c.1, c.2.1) : ℤ × ℤ) ∈ visitedF g (visitUpdate g O s c)
    rw [hVF]
    exact Finset.mem_insert_self _ _
  case stackV =>
    intro f hf
    rcases List.mem_cons.mp hf with rfl | hf'
    · rcases hInv.curV with h | h
      · exact Or.inl h
      · refine Or.inr ?_
        show ((s.x, s.y) : ℤ × ℤ) ∈ visitedF g (visitUpdate g O s c)
        rw [hVF]
        exact Finset.mem_insert_of_mem h
    · rcases hInv.stackV f hf' with h | h
      · exact Or.inl h
      · refine Or.inr ?_
        show ((f.1, f.2.1) : ℤ × ℤ) ∈ visitedF g (visitUpdate g O s c)
        rw [hVF]
        exact Finset.mem_insert_of_mem h
  case keysOut =>
    intro z hz hv
    rw [hVF] at hv
    have h1 : z ≠ ((c.1, c.2.1) : ℤ × ℤ) :=
      fun h => hv (by rw [h]; exact Finset.mem_insert_self _ _)
    have h2 : z ∉ visitedF g s := fun h => hv (Finset.mem_insert_of_mem h)
    have h3 : z ≠ ((s.x, s.y) : ℤ × ℤ) := by
      intro h
      rcases hInv.curV with hc | hc
      · exact hz (h.trans hc)
      · exact h2 (by rw [h]; exact hc)
    show (visitUpdate g O s c).keys z = 0
    rw [hKother z h1 h3]
    exact hInv.keysOut z hz h2
  case bitsTarget =>
    intro z d hdm hz
    show adjCell z d ∉ s.notVisited.erase (c.1, c.2.1)
    by_cases h1 : z = ((c.1, c.2.1) : ℤ × ℤ)
    · subst h1
      rw [hKnew] at hz
      have hdc : reciprocal c.2.2 = d := (hasDir_mask (reciprocal_mem hd) hdm).mp hz
      rw [← hdc, hback]
      intro hmem
      exact hInv.curNotNV (Finset.mem_of_mem_erase hmem)
    · by_cases h2 : z = ((s.x, s.y) : ℤ × ℤ)
      · subst h2
        rw [hKcur] at hz
        rcases hasDir_or hz with hk | hk
        · have := hInv.bitsTarget (s.x, s.y) d hdm (by rw [hInv.keyCur]; exact hk)
          intro hmem
          exact this (Finset.mem_of_mem_erase hmem)
        · have hdc : c.2.2 = d := (hasDir_mask hd hdm).mp hk
          rw [← hdc, ← hgeom]
          exact Finset.not_mem_erase _ _
      · rw [hKother z h1 h2] at hz
        have := hInv.bitsTarget z d hdm hz
        intro hmem
        exact this (Finset.mem_of_mem_erase hmem)
  case recip =>
    intro z d hdm hz
    by_cases h1 : z = ((c.1, c.2.1) : ℤ × ℤ)
    · subst h1
      rw [hKnew] at hz
      have hdc : reciprocal c.2.2 = d := (hasDir_mask (reciprocal_mem hd) hdm).mp hz
      rw [← hdc, hback, reciprocal_involutive c.2.2 hd, hKcur]
      exact hasDir_or_right (hasDir_self hd)
    · by_cases h2 : z = ((s.x, s.y) : ℤ × ℤ)
      · subst h2
        rw [hKcur] at hz
        rcases hasDir_or hz with hk | hk
        · have hks : hasDir (s.keys (s.x, s.y)) d := by rw [hInv.keyCur]; exact hk
          have hold := hInv.recip (s.x, s.y) d hdm hks
          have hwne : adjCell (s.x, s.y) d ≠ ((c.1, c.2.1) : ℤ × ℤ) := by
            intro h
            rw [h, hInv.keysNV hnv] at hold
            exact hasDir_zero hold
          exact hmono _ _ hwne hold
        · have hdc : c.2.2 = d := (hasDir_mask hd hdm).mp hk
          rw [← hdc, ← hgeom, hKnew]
          exact hasDir_self (reciprocal_mem hd)
      · rw [hKother z h1 h2] at hz
        have hold := hInv.recip z d hdm hz
        have hwne : adjCell z d ≠ ((c.1, c.2.1) : ℤ × ℤ) := by
          intro h
          rw [h, hInv.keysNV hnv] at hold
          exact hasDir_zero hold
        exact hmono _ _ hwne hold
  case pathNodup =>
    show (((c.1, c.2.1) : ℤ × ℤ) :: (s.x, s.y) :: stackCells s).Nodup
    refine List.nodup_cons.mpr ⟨?_, hInv.pathNodup⟩
    intro hmem
    rcases List.mem_cons.mp hmem with h | h
    · exact hne h
    · exact hnewNstack h
  case chain =>
    show adjCell (s.x, s.y) c.2.2 = (c.1, c.2.1) ∧ StackChain s.stack (s.x, s.y)
    exact ⟨hgeom.symm, hInv.chain⟩
  case parentExit =>
    rw [hPeval, if_neg (Ne.symm hnewNexit)]
    exact hInv.parentExit
  case parentDom =>
    intro z
    rw [hPeval, hVF]
    by_cases h1 : z = ((c.1, c.2.1) : ℤ × ℤ)
    · rw [if_pos h1]
      simp [h1]
    · rw [if_neg h1]
      rw [hInv.parentDom z]
      constructor
      · exact fun h => Finset.mem_insert_of_mem h
      · intro h
        rcases Finset.mem_insert.mp h with h | h
        · exact absurd h h1
        · exact h
  case parentProp =>
    intro z p hp
    rw [hPeval] at hp
    by_cases h1 : z = ((c.1, c.2.1) : ℤ × ℤ)
    · rw [if_pos h1] at hp
      subst h1
      injection hp with hp
      subst hp
      refine ⟨?_, ⟨c.2.2, hd, hgeom.symm, ?_, ?_⟩, ?_⟩
      · rcases hInv.curV with h | h
        · exact Or.inl h
        · refine Or.inr ?_
          rw [hVF]
          exact Finset.mem_insert_of_mem h
      · rw [hKcur]
        exact hasDir_or_right (hasDir_self hd)
      · rw [hKnew]
        exact hasDir_self (reciprocal_mem hd)
      · have hcm : ((s.x, s.y) : ℤ × ℤ) ∈ exitCell :: s.visitedSeq :=
          hmemSeq _ hInv.curV
        have ho := hOrdOld _ hcm
        rw [ho.1, hOrdNew]
        exact ho.2
    · rw [if_neg h1] at hp
      obtain ⟨hpv, ⟨d, hdm, hadj, hkp, hkz⟩, hord⟩ := hInv.parentProp z p hp
      have hpne : p ≠ ((c.1, c.2.1) : ℤ × ℤ) := by
        intro h
        rcases hpv with h' | h'
        · exact hnewNexit (by rw [← h]; exact h')
        · exact hnewNE (by rw [← h]; exact h')
      refine ⟨?_, ⟨d, hdm, hadj, ?_, ?_⟩, ?_⟩
      · rcases hpv with h | h
        · exact Or.inl h
        · refine Or.inr ?_
          rw [hVF]
          exact Finset.mem_insert_of_mem h
      · exact hmono _ _ hpne hkp
      · exact hmono _ _ h1 hkz
      · have hzv : z ∈ visitedF g s := (hInv.parentDom z).mp (by rw [hp]; rfl)
        have hzm : z ∈ exitCell :: s.visitedSeq := hmemSeq _ (Or.inr hzv)
        have hpm : p ∈ exitCell :: s.visitedSeq := hmemSeq _ hpv
        rw [(hOrdOld _ hpm).1, (hOrdOld _ hzm).1]
        exact hord
  case edgeParent =>
    intro z d hdm hz
    by_cases h1 : z = ((c.1, c.2.1) : ℤ × ℤ)
    · subst h1
      rw [hKnew] at hz
      have hdc : reciprocal c.2.2 = d := (hasDir_mask (reciprocal_mem hd) hdm).mp hz
      refine Or.inr ?_
      rw [hPeval, ← hdc, hback, if_pos rfl]
    · by_cases h2 : z = ((s.x, s.y) : ℤ × ℤ)
      · subst h2
        rw [hKcur] at hz
        rcases hasDir_or hz with hk | hk
        · have hks : hasDir (s.keys (s.x, s.y)) d := by rw [hInv.keyCur]; exact hk
          have hold := hInv.edgeParent (s.x, s.y) d hdm hks
          have hwne : adjCell (s.x, s.y) d ≠ ((c.1, c.2.1) : ℤ × ℤ) := by
            intro h
            have hr := hInv.recip (s.x, s.y) d hdm hks
            rw [h, hInv.keysNV hnv] at hr
            exact hasDir_zero hr
          rcases hold with h | h
          · refine Or.inl ?_
            rw [hPeval, if_neg hwne]
            exact h
          · refine Or.inr ?_
            rw [hPeval, if_neg h1]
            exact h
        · have hdc : c.2.2 = d := (hasDir_mask hd hdm).mp hk
          refine Or.inl ?_
          rw [hPeval, ← hdc, ← hgeom, if_pos rfl]
      · rw [hKother z h1 h2] at hz
        have hold := hInv.edgeParent z d hdm hz
        have hwne : adjCell z d ≠ ((c.1, c.2.1) : ℤ × ℤ) := by
          intro h
          have hr := hInv.recip z d hdm hz
          rw [h, hInv.keysNV hnv] at hr
          exact hasDir_zero hr
        rcases hold with h | h
        · refine Or.inl ?_
          rw [hPeval, if_neg hwne]
          exact h
        · refine Or.inr ?_
          rw [hPeval, if_neg h1]
          exact h
  case seqNodup =>
    show (exitCell :: (s.visitedSeq ++ [(c.1, c.2.1)])).Nodup
    rw [← List.cons_append]
    refine List.Nodup.append hInv.seqNodup (List.nodup_singleton _) ?_
    intro a ha hb
    rw [List.mem_singleton] at hb
    subst hb
    exact hnotmem ha
  case seqSet =>
    show (s.visitedSeq ++ [(c.1, c.2.1)]).toFinset = visitedF g (visitUpdate g O s c)
    rw [hVF, List.toFinset_append, hInv.seqSet, Finset.union_comm,
      Finset.insert_eq]
    simp
  case finished =>
    intro hdrop z hz
    have hsd : s.dropped = false :=
      (Bool.or_eq_false_iff.mp
        (show (s.dropped || dropOf g O s) = false from hdrop)).1
    by_cases h1 : z = ((c.1, c.2.1) : ℤ × ℤ)
    · exact Or.inl (Or.inl h1)
    · rw [hVF] at hz
      have hz' : z = exitCell ∨ z ∈ visitedF g s := by
        rcases hz with h | h
        · exact Or.inl h
        · rcases Finset.mem_insert.mp h with h | h
          · exact absurd h h1
          · exact Or.inr h
      rcases hInv.finished hsd z hz' with (h | h) | h
      · refine Or.inl (Or.inr ?_)
        show z ∈ ((s.x, s.y) : ℤ × ℤ) :: stackCells s
        rw [h]
        exact List.mem_cons_self _ _
      · refine Or.inl (Or.inr ?_)
        show z ∈ ((s.x, s.y) : ℤ × ℤ) :: stackCells s
        exact List.mem_cons_of_mem _ h
      · refine Or.inr ?_
        intro c' hc' hmem
        exact h c' hc' (Finset.mem_of_mem_erase hmem)

lemma inv_next {g : GridCfg} {O : Oracle} {t c : ℚ} {n : ℕ} {s s' : MazeState}
    (hO : OracleOK O) (hInv : Inv g s) (hs : mazeStep g O t c n s = .next s') :
    Inv g s' := by
  unfold mazeStep at hs
  by_cases hdone : s.notVisited = ∅ ∧ s.stack = []
  · rw [if_pos hdone] at hs
    simp at hs
  · rw [if_neg hdone] at hs
    cases hp : pickOf g O s with
    | some cc =>
      rw [hp] at hs
      injection hs with he
      rw [← he]
      exact inv_visit hO hInv hp
    | none =>
      rw [hp] at hs
      cases hstk : s.stack with
      | nil =>
        rw [hstk] at hs
        simp at hs
      | cons f rest =>
        rw [hstk] at hs
        injection hs with he
        rw [← he]
        exact inv_pop hO hInv hp hstk

lemma inv_halt {g : GridCfg} {O : Oracle} {t c : ℚ} {n : ℕ} {s s' : MazeState}
    (hInv : Inv g s) (hs : mazeStep g O t c n s = .halt s') : Inv g s' := by
  unfold mazeStep at hs
  by_cases hdone : s.notVisited = ∅ ∧ s.stack = []
  · rw [if_pos hdone] at hs
    injection hs with he
    rw [← he]
    exact hInv
  · rw [if_neg hdone] at hs
    cases hp : pickOf g O s with
    | some cc =>
      rw [hp] at hs
      simp at hs
    | none =>
      rw [hp] at hs
      cases hstk : s.stack with
      | nil =>
        rw [hstk] at hs
        injection hs with he
        rw [← he]
        exact inv_deadEnd hInv
      | cons f rest =>
        rw [hstk] at hs
        simp at hs

lemma inv_run {g : GridCfg} {O : Oracle} {t c : ℚ} {n : ℕ}
    (hO : OracleOK O) :
    ∀ fuel s, Inv g s → Inv g (mazeRun g O t c n fuel s).1 :=
  mazeRun_preserve (Inv g)
    (fun _ _ h hs => inv_next hO h hs)
    (fun _ _ h hs => inv_halt h hs)

/-- The halting condition analysis: a `halt` result is either the clean
completion (line 578 condition false) or a final dead end at an empty stack. -/
lemma halt_cases {g : GridCfg} {O : Oracle} {t c : ℚ} {n : ℕ}
    {sp F : MazeState} (hs : mazeStep g O t c n sp = .halt F) :
    (sp.notVisited = ∅ ∧ sp.stack = [] ∧ F = sp) ∨
    (pickOf g O sp = none ∧ sp.stack = [] ∧ F = deadEndUpdate g O t c n sp) := by
  unfold mazeStep at hs
  by_cases hdone : sp.notVisited = ∅ ∧ sp.stack = []
  · rw [if_pos hdone] at hs
    injection hs with he
    exact Or.inl ⟨hdone.1, hdone.2, he.symm⟩
  · rw [if_neg hdone] at hs
    cases hp : pickOf g O sp with
    | some cc =>
      rw [hp] at hs
      simp at hs
    | none =>
      rw [hp] at hs
      cases hstk : sp.stack with
      | nil =>
        rw [hstk] at hs
        injection hs with he
        exact Or.inr ⟨rfl, rfl, he.symm⟩
      | cons f rest =>
        rw [hstk] at hs
        simp at hs

lemma measure_decrease {g : GridCfg} {O : Oracle} {t c : ℚ} {n : ℕ}
    {s s' : MazeState} (hs : mazeStep g O t c n s = .next s') :
    measureOf s' < measureOf s := by
  unfold mazeStep at hs
  by_cases hdone : s.notVisited = ∅ ∧ s.stack = []
  · rw [if_pos hdone] at hs
    simp at hs
  · rw [if_neg hdone] at hs
    cases hp : pickOf g O s with
    | some cc =>
      rw [hp] at hs
      injection hs with he
      rw [← he]
      have hmem := pickOf_mem_nv hp
      have hcard : (s.notVisited.erase (cc.1, cc.2.1)).card
          = s.notVisited.card - 1 := Finset.card_erase_of_mem hmem
      have hpos : 0 < s.notVisited.card := Finset.card_pos.mpr ⟨_, hmem⟩
      show 2 * (s.notVisited.erase (cc.1, cc.2.1)).card + (s.stack.length + 1)
        < 2 * s.notVisited.card + s.stack.length
      rw [hcard]
      omega
    | none =>
      rw [hp] at hs
      cases hstk : s.stack with
      | nil =>
        rw [hstk] at hs
        simp at hs
      | cons f rest =>
        rw [hstk] at hs
        injection hs with he
        rw [← he]
        show 2 * s.notVisited.card + rest.length
          < 2 * s.notVisited.card + s.stack.length
        rw [hstk]
        simp [List.length_cons]

lemma mazeRun_terminates {g : GridCfg} {O : Oracle} {t c : ℚ} {n : ℕ} :
    ∀ fuel s, measureOf s < fuel → (mazeRun g O t c n fuel s).2 = true := by
  intro fuel
  induction fuel with
  | zero => intro s h; omega
  | succ m ih =>
    intro s h
    cases hs : mazeStep g O t c n s with
    | halt s' =>
      have he : mazeRun g O t c n (m + 1) s = (s', true) := by
        simp only [mazeRun, hs]
      rw [he]
    | next s' =>
      have he : mazeRun g O t c n (m + 1) s = mazeRun g O t c n m s' := by
        simp only [mazeRun, hs]
      rw [he]
      exact ih s' (lt_of_lt_of_le (measure_decrease hs) (Nat.lt_succ_iff.mp h))

/-- If the run completes, a pre-halt state exists: it satisfies the invariant
and one final `mazeStep` turns it into the result state. -/
lemma mazeRun_halt {g : GridCfg} {O : Oracle} {t c : ℚ} {n : ℕ}
    (hO : OracleOK O) :
    ∀ fuel s, (mazeRun g O t c n fuel s).2 = true → Inv g s →
      ∃ sp, Inv g sp ∧ mazeStep g O t c n sp = .halt (mazeRun g O t c n fuel s).1 := by
  intro fuel
  induction fuel with
  | zero =>
    intro s h
    simp [mazeRun] at h
  | succ m ih =>
    intro s hdone hInv
    cases hs : mazeStep g O t c n s with
    | halt s' =>
      have he : mazeRun g O t c n (m + 1) s = (s', true) := by
        simp only [mazeRun, hs]
      rw [he]
      exact ⟨s, hInv, hs⟩
    | next s' =>
      have he : mazeRun g O t c n (m + 1) s = mazeRun g O t c n m s' := by
        simp only [mazeRun, hs]
      rw [he] at hdone ⊢
      exact ih s' hdone (inv_next hO hInv hs)

/-- The full traversal halts by itself: the supplied fuel exceeds the loop
measure, which strictly decreases at `visit` and `pop` steps. -/
lemma mazeTraverse_halts {g : GridCfg} {O : Oracle} {t c : ℚ} {n : ℕ}
    (hO : OracleOK O) :
    ∃ sp, Inv g sp ∧ mazeStep g O t c n sp = .halt (mazeTraverse g O t c n) :=
  mazeRun_halt hO (measureOf (initState g) + 1) (initState g)
    (mazeRun_terminates _ _ (Nat.lt_succ_self _)) (inv_init g)

/-- The invariant holds at the final state of the full traversal. -/
lemma inv_traverse {g : GridCfg} {O : Oracle} {t c : ℚ} {n : ℕ}
    (hO : OracleOK O) : Inv g (mazeTraverse g O t c n) := by
  obtain ⟨sp, hInv, hstep⟩ := mazeTraverse_halts (t := t) (c := c) (n := n) hO
  exact inv_halt hInv hstep

/-- **C7.** Throughout the maze traversal (after any number of loop
iterations), whenever a cell's key has a committed direction bit `d` toward a
neighbor, the neighbor's key has the reciprocal bit set back, under
`reciprocal` mapping East `1 ↔ 4` West and South `2 ↔ 8` North; and
`reciprocal` is an involution on the four direction bits. -/
theorem key_reciprocity (g : GridCfg) (O : Oracle) (t c : ℚ) (n : ℕ)
    (hO : OracleOK O) :
    (∀ d ∈ dirMasks, reciprocal (reciprocal d) = d) ∧
    ∀ fuel z, ∀ d ∈ dirMasks,
      hasDir ((mazeRun g O t c n fuel (initState g)).1.keys z) d →
        hasDir ((mazeRun g O t c n fuel (initState g)).1.keys (adjCell z d))
          (reciprocal d) := by
  refine ⟨reciprocal_involutive, ?_⟩
  intro fuel z d hd hz
  exact (inv_run hO fuel (initState g) (inv_init g)).recip z d hd hz

def gw7 : GridCfg := ⟨0, 0, 1, 1, fun _ => true⟩

def ow7 : Oracle := ⟨fun _ => false, fun _ l => l⟩

theorem key_reciprocity_witness :
    hasDir ((mazeRun gw7 ow7 0 0 1 1 (initState gw7)).1.keys (adjCell (0, 0) 4))
      (reciprocal 4) :=
  (key_reciprocity gw7 ow7 0 0 1 (fun _ l => List.Perm.refl l)).2 1 (0, 0) 4
    (by decide) (by unfold hasDir; decide)

/-! ## Spanning tree (claim C1) -/

/-- Reachability from the exit cell through valid grid cells, following the
traversal's neighbor enumeration. -/
inductive Reach (g : GridCfg) : ℤ × ℤ → Prop
  | exit : Reach g exitCell
  | step {z : ℤ × ℤ} {c : Cand} (hz : Reach g z)
      (hc : c ∈ iter_neighbors g.x0 g.y0 g.cols g.rows z.1 z.2)
      (hv : (c.1, c.2.1) ∈ (validCells g).erase exitCell) :
      Reach g (c.1, c.2.1)

/-- The vertex set of the final connectivity graph: the exit cell together
with every visited valid cell. -/
def treeVerts (g : GridCfg) (s : MazeState) : Finset (ℤ × ℤ) :=
  insert exitCell (visitedF g s)

/-- A committed connection: `u`'s key has the direction bit `d` pointing at
`v`. -/
def keyEdge (s : MazeState) (u v : ℤ × ℤ) : Prop :=
  ∃ d ∈ dirMasks, adjCell u d = v ∧ hasDir (s.keys u) d

/-- The undirected graph formed by the connectivity keys, on the vertex set
`treeVerts`. -/
def mazeGraph (g : GridCfg) (s : MazeState) :
    SimpleGraph {z : ℤ × ℤ // z ∈ treeVerts g s} where
  Adj a b := a ≠ b ∧ (keyEdge s a.1 b.1 ∨ keyEdge s b.1 a.1)
  symm := by
    rintro a b ⟨h1, h2⟩
    exact ⟨h1.symm, h2.symm⟩
  loopless := by
    rintro a ⟨h1, _⟩
    exact h1 rfl

lemma list_exists_max {α : Type _} (r : α → ℕ) :
    ∀ l : List α, l ≠ [] → ∃ u ∈ l, ∀ w ∈ l, r w ≤ r u := by
  intro l
  induction l with
  | nil => intro h; exact absurd rfl h
  | cons a l ih =>
    intro _
    by_cases hl : l = []
    · subst hl
      refine ⟨a, List.mem_cons_self a [], ?_⟩
      intro w hw
      rcases List.mem_cons.mp hw with rfl | h
      · exact le_refl _
      · simp at h
    · obtain ⟨u, hu, hm⟩ := ih hl
      by_cases hru : r a ≤ r u
      · refine ⟨u, List.mem_cons_of_mem a hu, ?_⟩
        intro w hw
        rcases List.mem_cons.mp hw with rfl | h
        · exact hru
        · exact hm w h
      · refine ⟨a, List.mem_cons_self a l, ?_⟩
        intro w hw
        rcases List.mem_cons.mp hw with rfl | h
        · exact le_refl _
        · exact le_trans (hm w h) (le_of_not_le hru)

/-- A graph whose every edge is oriented by a rank-decreasing partial parent
map is acyclic: on a cycle, the maximal-rank vertex would need the same
parent through both incident edges. -/
lemma acyclic_of_parent {V : Type _} [DecidableEq V] (G : SimpleGraph V)
    (par : V → Option V) (r : V → ℕ)
    (hor : ∀ a b, G.Adj a b → par b = some a ∨ par a = some b)
    (hr : ∀ a b, par b = some a → r a < r b) : G.IsAcyclic := by
  intro v cyc hcyc
  obtain ⟨u, hu, hmax⟩ := list_exists_max r cyc.support cyc.support_ne_nil
  have hrot : (cyc.rotate hu).IsCycle := hcyc.rotate hu
  have hsup : ∀ w, w ∈ (cyc.rotate hu).support → w ∈ cyc.support := by
    intro w hw
    rcases (SimpleGraph.Walk.mem_support_iff _).mp hw with rfl | hw'
    · exact hu
    · exact List.mem_of_mem_tail
        (((SimpleGraph.Walk.support_rotate cyc hu).mem_iff).mp hw')
  cases hcc : cyc.rotate hu with
  | nil =>
    rw [hcc] at hrot
    exact hrot.toIsCircuit.ne_nil rfl
  | cons hadj q =>
    rename_i b
    rw [hcc] at hrot
    obtain ⟨hq, hne⟩ := (SimpleGraph.Walk.cons_isCycle_iff q hadj).mp hrot
    have hbmem : b ∈ cyc.support := by
      refine hsup b ?_
      rw [hcc, SimpleGraph.Walk.support_cons]
      exact List.mem_cons_of_mem _ (SimpleGraph.Walk.start_mem_support q)
    have hub : par u = some b := by
      rcases hor u b hadj with h | h
      · exact absurd (hmax b hbmem) (not_le_of_lt (hr u b h))
      · exact h
    cases hqq : q.reverse with
    | nil => exact absurd hadj (G.loopless u)
    | cons hadj2 q2 =>
      rename_i w
      have hwq : w ∈ q.support := by
        have h1 : w ∈ q.reverse.support := by
          rw [hqq, SimpleGraph.Walk.support_cons]
          exact List.mem_cons_of_mem _ (SimpleGraph.Walk.start_mem_support q2)
        rw [SimpleGraph.Walk.support_reverse] at h1
        exact List.mem_reverse.mp h1
      have hwmem : w ∈ cyc.support := by
        refine hsup w ?_
        rw [hcc, SimpleGraph.Walk.support_cons]
        exact List.mem_cons_of_mem _ hwq
      have huw : par u = some w := by
        rcases hor u w hadj2 with h | h
        · exact absurd (hmax w hwmem) (not_le_of_lt (hr u w h))
        · exact h
      have hbw : b = w := by
        have h2 := hub.symm.trans huw
        injection h2
      have hedge : s(u, w) ∈ q.edges := by
        have h1 : s(u, w) ∈ q.reverse.edges := by
          rw [hqq, SimpleGraph.Walk.edges_cons]
          exact List.mem_cons_self _ _
        rw [SimpleGraph.Walk.edges_reverse] at h1
        exact List.mem_reverse.mp h1
      rw [← hbw] at hedge
      exact hne hedge

lemma ordOf_eq_zero {s : MazeState} {z : ℤ × ℤ} (h : ordOf s z = 0) :
    z = exitCell := by
  unfold ordOf idxOf at h
  by_cases he : exitCell = z
  · exact he.symm
  · rw [if_neg he] at h
    omega

/-- Following the parent chain, every tree vertex is connected to the exit
cell. -/
lemma maze_connected {g : GridCfg} {F : MazeState} (hInv : Inv g F) :
    (mazeGraph g F).Connected := by
  rw [SimpleGraph.connected_iff_exists_forall_reachable]
  refine ⟨⟨exitCell, Finset.mem_insert_self _ _⟩, ?_⟩
  have key : ∀ N, ∀ a : {z : ℤ × ℤ // z ∈ treeVerts g F}, ordOf F a.1 ≤ N →
      (mazeGraph g F).Reachable a ⟨exitCell, Finset.mem_insert_self _ _⟩ := by
    intro N
    induction N with
    | zero =>
      intro a ha
      have : a = ⟨exitCell, Finset.mem_insert_self _ _⟩ :=
        Subtype.ext (ordOf_eq_zero (Nat.le_zero.mp ha))
      rw [this]
    | succ N ih =>
      intro a ha
      by_cases hex : a.1 = exitCell
      · have : a = ⟨exitCell, Finset.mem_insert_self _ _⟩ := Subtype.ext hex
        rw [this]
      · have hmem : a.1 ∈ visitedF g F := by
          rcases Finset.mem_insert.mp a.2 with h | h
          · exact absurd h hex
          · exact h
        obtain ⟨p, hp⟩ : ∃ p, F.parent a.1 = some p := by
          have h1 := (hInv.parentDom a.1).mpr hmem
          cases hh : F.parent a.1 with
          | none => rw [hh] at h1; simp at h1
          | some p => exact ⟨p, rfl⟩
        obtain ⟨hpv, ⟨d, hdm, hadj, hkp, hkz⟩, hord⟩ := hInv.parentProp a.1 p hp
        have hpmem : p ∈ treeVerts g F := by
          rcases hpv with h | h
          · rw [h]; exact Finset.mem_insert_self _ _
          · exact Finset.mem_insert_of_mem h
        have hpa : (mazeGraph g F).Adj ⟨p, hpmem⟩ a := by
          refine ⟨?_, Or.inl ⟨d, hdm, hadj, hkp⟩⟩
          intro he
          have h2 : p = a.1 := congrArg Subtype.val he
          rw [h2] at hord
          exact lt_irrefl _ hord
        have hreach := ih ⟨p, hpmem⟩ (by show ordOf F p ≤ N; omega)
        exact (hpa.symm.reachable).trans hreach
  intro w
  exact ((key (ordOf F w.1) w (le_refl _))).symm

/-- The subtype-level parent map used to orient the final key graph. -/
def parSub (g : GridCfg) (F : MazeState)
    (a : {z : ℤ × ℤ // z ∈ treeVerts g F}) :
    Option {z : ℤ × ℤ // z ∈ treeVerts g F} :=
  match F.parent a.1 with
  | none => none
  | some p => if h : p ∈ treeVerts g F then some ⟨p, h⟩ else none

lemma parSub_lift {g : GridCfg} {F : MazeState}
    {x y : {z : ℤ × ℤ // z ∈ treeVerts g F}}
    (hxy : F.parent x.1 = some y.1) : parSub g F x = some y := by
  unfold parSub
  rw [hxy]
  simp [y.2]

lemma maze_acyclic {g : GridCfg} {F : MazeState} (hInv : Inv g F) :
    (mazeGraph g F).IsAcyclic := by
  refine acyclic_of_parent _ (parSub g F) (fun a => ordOf F a.1) ?_ ?_
  · rintro a b ⟨hne, he | he⟩
    · obtain ⟨d, hdm, hadj, hk⟩ := he
      rcases hInv.edgeParent a.1 d hdm hk with h | h
      · rw [hadj] at h
        exact Or.inl (parSub_lift h)
      · rw [hadj] at h
        exact Or.inr (parSub_lift h)
    · obtain ⟨d, hdm, hadj, hk⟩ := he
      rcases hInv.edgeParent b.1 d hdm hk with h | h
      · rw [hadj] at h
        exact Or.inr (parSub_lift h)
      · rw [hadj] at h
        exact Or.inl (parSub_lift h)
  · intro a b h
    unfold parSub at h
    cases hh : F.parent b.1 with
    | none => rw [hh] at h; simp at h
    | some p =>
      rw [hh] at h
      by_cases hmem : p ∈ treeVerts g F
      · simp only [hmem, dif_pos, Option.some.injEq] at h
        obtain ⟨_, _, hord⟩ := hInv.parentProp b.1 p hh
        have hpa : p = a.1 := congrArg Subtype.val h
        show ordOf F a.1 < ordOf F b.1
        rw [← hpa]
        exact hord
      · simp [hmem] at h

/-- Every committed key bit points from a tree vertex to a tree vertex. -/
lemma key_targets {g : GridCfg} {F : MazeState} (hInv : Inv g F) :
    ∀ z, ∀ d ∈ dirMasks, hasDir (F.keys z) d →
      z ∈ treeVerts g F ∧ adjCell z d ∈ treeVerts g F := by
  intro z d hdm hz
  constructor
  · by_contra hc
    have hzer : F.keys z = 0 :=
      hInv.keysOut z (fun he => hc (by rw [he]; exact Finset.mem_insert_self _ _))
        (fun hv => hc (Finset.mem_insert_of_mem hv))
    rw [hzer] at hz
    exact hasDir_zero hz
  · rcases hInv.edgeParent z d hdm hz with h | h
    · have h1 := (hInv.parentDom (adjCell z d)).mp (by rw [h]; rfl)
      exact Finset.mem_insert_of_mem h1
    · obtain ⟨hpv, _, _⟩ := hInv.parentProp z (adjCell z d) h
      rcases hpv with h' | h'
      · rw [h']; exact Finset.mem_insert_self _ _
      · exact Finset.mem_insert_of_mem h'

/-- If no candidate was dropped, every reachable valid cell ends up visited. -/
lemma reach_visited {g : GridCfg} {O : Oracle} {t c : ℚ} {n : ℕ}
    {sp F : MazeState} (hO : OracleOK O) (hInv : Inv g sp)
    (hs : mazeStep g O t c n sp = .halt F) (hdrop : F.dropped = false) :
    ∀ z, Reach g z → z = exitCell ∨ z ∈ visitedF g F := by
  have hInvF : Inv g F := inv_halt hInv hs
  rcases halt_cases hs with ⟨hnv, _, hFs⟩ | ⟨hp, hstk, hFd⟩
  · subst hFs
    intro z hz
    cases hz with
    | exit => exact Or.inl rfl
    | step hz hc hv =>
      refine Or.inr ?_
      show _ ∈ ((validCells g).erase exitCell) \ F.notVisited
      rw [hnv]
      simpa using hv
  · subst hFd
    have hcur : ((sp.x, sp.y) : ℤ × ℤ) = exitCell := by
      have h1 := hInv.chain
      rw [hstk] at h1
      exact h1
    have hdropOf : dropOf g O sp = false := by
      have h1 : (sp.dropped || dropOf g O sp) = false := hdrop
      exact (Bool.or_eq_false_iff.mp h1).2
    have hexitCov : ∀ cc ∈ iter_neighbors g.x0 g.y0 g.cols g.rows
        exitCell.1 exitCell.2,
        (cc.1, cc.2.1) ∉ (deadEndUpdate g O t c n sp).notVisited := by
      intro cc hcc
      rw [← hcur] at hcc
      exact pickOf_none hO hp hdropOf cc hcc
    intro z hz
    induction hz with
    | exit => exact Or.inl rfl
    | @step z' cc hz' hc hv ih =>
      have hout : (cc.1, cc.2.1) ∉ (deadEndUpdate g O t c n sp).notVisited := by
        rcases ih with hze | hzv
        · subst hze
          exact hexitCov cc hc
        · rcases hInvF.finished hdrop z' (Or.inr hzv) with (hc1 | hc1) | hc1
          · exfalso
            have hze : z' = exitCell := by
              rw [hc1]
              exact hcur
            have h1 := (Finset.mem_sdiff.mp hzv).1
            rw [hze] at h1
            exact absurd h1 (Finset.not_mem_erase _ _)
          · exfalso
            rw [show stackCells (deadEndUpdate g O t c n sp)
              = stackCells sp from rfl] at hc1
            simp [stackCells, hstk] at hc1
          · exact hc1 cc hc
      refine Or.inr (Finset.mem_sdiff.mpr ⟨hv, hout⟩)

/-- **C1 (amended).**  If the traversal dropped no candidate (the
`for`-`else` leak of `skewed_random_iter` never fired), then the final keys
form a spanning tree of the valid cells reachable from the exit cell, rooted
at the exit cell: the vertex set consists of the exit cell and visited valid
cells only, every committed key bit connects two such vertices (bits toward
the off-grid exit cell itself are allowed — the code does commit the first
cell's bit back toward `(-1, 0)`), every reachable valid cell is a vertex,
and the key graph is a tree (connected and acyclic). -/
theorem maze_spanning_tree {g : GridCfg} {O : Oracle} {t c : ℚ} {n : ℕ}
    {F : MazeState} (hO : OracleOK O) (hF : F = mazeTraverse g O t c n)
    (hdrop : F.dropped = false) :
    (∀ z ∈ treeVerts g F, z = exitCell ∨ z ∈ validCells g) ∧
    (∀ z, ∀ d ∈ dirMasks, hasDir (F.keys z) d →
      z ∈ treeVerts g F ∧ adjCell z d ∈ treeVerts g F) ∧
    (∀ z, Reach g z → z ∈ treeVerts g F) ∧
    (mazeGraph g F).IsTree := by
  obtain ⟨sp, hInvp, hstep⟩ :=
    mazeTraverse_halts (g := g) (t := t) (c := c) (n := n) hO
  rw [← hF] at hstep
  have hInv : Inv g F := inv_halt hInvp hstep
  refine ⟨?_, key_targets hInv, ?_, maze_connected hInv, maze_acyclic hInv⟩
  · intro z hz
    rcases Finset.mem_insert.mp hz with h | h
    · exact Or.inl h
    · exact Or.inr (Finset.mem_of_mem_erase (Finset.mem_sdiff.mp h).1)
  · intro z hz
    rcases reach_visited hO hInvp hstep hdrop z hz with h | h
    · rw [h]; exact Finset.mem_insert_self _ _
    · exact Finset.mem_insert_of_mem h

def gw1 : GridCfg := ⟨-1, 0, 1, 1, fun _ => true⟩

def ow1 : Oracle := ⟨fun _ => false, fun _ l => l⟩

theorem maze_spanning_tree_witness :
    (mazeGraph gw1 (mazeTraverse gw1 ow1 0 0 1)).IsTree :=
  (maze_spanning_tree (g := gw1) (O := ow1) (t := 0) (c := 0) (n := 1)
    (fun _ l => List.Perm.refl l) rfl (by decide)).2.2.2

def gridC1 : GridCfg :=
  ⟨-2, 0, 2, 2, fun z =>
    decide (z = (-2, 0) ∨ z = (-2, 1) ∨ z = (-1, 0))⟩

def oracleC1 : Oracle := ⟨fun k => decide (k ≤ 1), fun _ l => l⟩

/-- **C1 counterexample.**  With a 2×2 grid whose valid cells are
`(-2,0), (-2,1), (-1,0)` and a PRNG whose first two biased draws succeed, the
`for`-`else` leak drops the candidate `(-2,1)`: that cell is valid and
reachable from the exit, yet it finishes the traversal unvisited with key 0
and is not a vertex of the final key graph — the keys do not span the
reachable valid cells, refuting the claim as stated for every mask, grid and
randomness setting. -/
theorem maze_spanning_tree_counterexample :
    ((-2, 1) : ℤ × ℤ) ∈ validCells gridC1 ∧
    Reach gridC1 (-2, 1) ∧
    (mazeTraverse gridC1 oracleC1 0 0 1).keys (-2, 1) = 0 ∧
    ((-2, 1) : ℤ × ℤ) ∉ treeVerts gridC1 (mazeTraverse gridC1 oracleC1 0 0 1) ∧
    (mazeTraverse gridC1 oracleC1 0 0 1).dropped = true := by
  refine ⟨by decide, ?_, by decide, ?_, by decide⟩
  · have h1 : Reach gridC1 ((-2 : ℤ), (0 : ℤ)) :=
      Reach.step (g := gridC1) (c := ((-2 : ℤ), (0 : ℤ), (4 : ℕ)))
        Reach.exit (by decide) (by decide)
    exact Reach.step (g := gridC1) (c := ((-2 : ℤ), (1 : ℤ), (2 : ℕ)))
      h1 (by decide) (by decide)
  · show ((-2, 1) : ℤ × ℤ) ∉
      insert exitCell (visitedF gridC1 (mazeTraverse gridC1 oracleC1 0 0 1))
    decide

/-! ## The skewed random iterator (claim C3) -/

/-- **C3 (amended).**  `skewed_random_iter` yields a permutation of its input
only when the drop case does not fire: either the unbiased branch is taken,
or some candidate matches `entry_dir`, or the list is empty.  When the biased
branch is taken and a candidate matches `entry_dir`, the first such candidate
is yielded first and removed before the remaining candidates are shuffled.
(When the biased branch is taken, no candidate matches and the list is
non-empty, the `for`-`else` leak removes the last candidate unyielded, so the
output is not a permutation of the input — see the counterexample.) -/
theorem skewed_iter_perm (bias : Bool) (shuf : List Cand → List Cand)
    (hshuf : ∀ l, (shuf l).Perm l) (l : List Cand) (mask : ℕ) :
    (¬(bias = true ∧ (l.find? (fun c => c.2.2 == mask)).isNone = true ∧ l ≠ []) →
      (skewed_random_iter bias shuf l mask).Perm l) ∧
    (∀ c, bias = true → l.find? (fun c => c.2.2 == mask) = some c →
      skewed_random_iter bias shuf l mask = c :: shuf (l.erase c)) := by
  constructor
  · exact skewed_perm hshuf l mask
  · intro c hb hf
    subst hb
    unfold skewed_random_iter
    rw [if_pos rfl, hf]

/-- **C3 counterexample.**  A one-element candidate list whose direction bit
does not match `entry_dir`, under the biased branch: the element is removed
by the `for`-`else` leak without being yielded, so the output is empty, not a
permutation of the input. -/
theorem skewed_iter_counterexample :
    skewed_random_iter true (fun l => l)
        [((0 : ℤ), (0 : ℤ), (1 : ℕ))] 2 = [] ∧
    ¬ (skewed_random_iter true (fun l => l)
        [((0 : ℤ), (0 : ℤ), (1 : ℕ))] 2).Perm [((0 : ℤ), (0 : ℤ), (1 : ℕ))] := by
  exact ⟨rfl, by decide⟩

theorem skewed_iter_perm_witness :
    skewed_random_iter true (fun l => l)
        [((0 : ℤ), (0 : ℤ), (1 : ℕ)), ((1 : ℤ), (0 : ℤ), (2 : ℕ))] 2
      = ((1 : ℤ), (0 : ℤ), (2 : ℕ)) ::
        (fun l => l)
          ([((0 : ℤ), (0 : ℤ), (1 : ℕ)), ((1 : ℤ), (0 : ℤ), (2 : ℕ))].erase
            ((1 : ℤ), (0 : ℤ), (2 : ℕ))) :=
  (skewed_iter_perm true (fun l => l) (fun l => List.Perm.refl l)
    [((0 : ℤ), (0 : ℤ), (1 : ℕ)), ((1 : ℤ), (0 : ℤ), (2 : ℕ))] 2).2
    ((1 : ℤ), (0 : ℤ), (2 : ℕ)) rfl rfl

/-! ## Grid construction (claim C8), lines 367-387 -/

/-- The bounding box of the transformed mask (`mask_xformed.bounds`). -/
structure BBox where
  xmin : ℚ
  ymin : ℚ
  xmax : ℚ
  ymax : ℚ

def grid_x0 (b : BBox) (W : ℚ) : ℤ := ⌊b.xmin / W⌋

def grid_y0 (b : BBox) (W : ℚ) : ℤ := ⌊b.ymin / W⌋

/-- `grid_origin = grid_x0*grid_cell_width, grid_y0*grid_cell_width`. -/
def grid_origin (b : BBox) (W : ℚ) : ℚ × ℚ :=
  ((grid_x0 b W : ℚ) * W, (grid_y0 b W : ℚ) * W)

def grid_cols (b : BBox) (W : ℚ) : ℤ := ⌈(b.xmax - (grid_origin b W).1) / W⌉

def grid_rows (b : BBox) (W : ℚ) : ℤ := ⌈(b.ymax - (grid_origin b W).2) / W⌉

/-- The origin index the spec describes: `floor(bbox_min / W)`. -/
def spec_x0 (b : BBox) (W : ℚ) : ℤ := ⌊b.xmin / W⌋

def spec_y0 (b : BBox) (W : ℚ) : ℤ := ⌊b.ymin / W⌋

/-- The extent the spec describes: `ceil(bbox_span / W)`. -/
def spec_cols (b : BBox) (W : ℚ) : ℤ := ⌈(b.xmax - b.xmin) / W⌉

def spec_rows (b : BBox) (W : ℚ) : ℤ := ⌈(b.ymax - b.ymin) / W⌉

/-- Rotation by the angle whose cosine/sine pair is `cs`. -/
def rotQ (cs : ℚ × ℚ) (p : ℚ × ℚ) : ℚ × ℚ :=
  (cs.1 * p.1 - cs.2 * p.2, cs.2 * p.1 + cs.1 * p.2)

/-- The forward mask transform: `translate(mask, -x0, -y0)` then
`rotate(·, mesh_angle, origin=(0,0))`. -/
def maskXform (o : ℚ × ℚ) (cs : ℚ × ℚ) (p : ℚ × ℚ) : ℚ × ℚ :=
  rotQ cs (p.1 - o.1, p.2 - o.2)

/-- A point of the grid cell `(x, y)`: the unit-square point `p` scaled by
`W`, translated to the grid position, rotated by `-mesh_angle` about the
origin and translated by `(x0, y0)` (lines 381-386). -/
def cellCorner (o : ℚ × ℚ) (cs : ℚ × ℚ) (W : ℚ) (x y : ℤ) (p : ℚ × ℚ) :
    ℚ × ℚ :=
  ((cs.1 * (W * p.1 + x * W) + cs.2 * (W * p.2 + y * W)) + o.1,
   (-cs.2 * (W * p.1 + x * W) + cs.1 * (W * p.2 + y * W)) + o.2)

lemma snap_bounds (lo hi W : ℚ) (hW : 0 < W) :
    (⌈(hi - lo) / W⌉ ≤ ⌈(hi - (⌊lo / W⌋ : ℚ) * W) / W⌉) ∧
    (⌈(hi - (⌊lo / W⌋ : ℚ) * W) / W⌉ ≤ ⌈(hi - lo) / W⌉ + 1) ∧
    ((⌊lo / W⌋ : ℚ) * W ≤ lo) ∧
    (hi ≤ ((⌊lo / W⌋ : ℚ) + (⌈(hi - (⌊lo / W⌋ : ℚ) * W) / W⌉ : ℚ)) * W) := by
  have hW0 : W ≠ 0 := ne_of_gt hW
  have hfl : ((⌊lo / W⌋ : ℤ) : ℚ) ≤ lo / W := Int.floor_le _
  have hfl2 : lo / W - 1 < ((⌊lo / W⌋ : ℤ) : ℚ) := Int.sub_one_lt_floor _
  have hrw : (hi - (⌊lo / W⌋ : ℚ) * W) / W = hi / W - (⌊lo / W⌋ : ℚ) := by
    field_simp
    ring
  have hsub : (hi - lo) / W = hi / W - lo / W := by ring
  refine ⟨?_, ?_, ?_, ?_⟩
  · refine Int.ceil_le_ceil ?_
    rw [hrw, hsub]
    linarith
  · have h1 : (hi - (⌊lo / W⌋ : ℚ) * W) / W ≤ (hi - lo) / W + 1 := by
      rw [hrw, hsub]
      linarith
    calc ⌈(hi - (⌊lo / W⌋ : ℚ) * W) / W⌉
        ≤ ⌈(hi - lo) / W + 1⌉ := Int.ceil_le_ceil h1
      _ = ⌈(hi - lo) / W⌉ + 1 := Int.ceil_add_one _
  · exact (le_div_iff₀ hW).mp hfl
  · have h2 : (hi - (⌊lo / W⌋ : ℚ) * W) / W
        ≤ ((⌈(hi - (⌊lo / W⌋ : ℚ) * W) / W⌉ : ℤ) : ℚ) := Int.le_ceil _
    have h3 := (div_le_iff₀ hW).mp h2
    linarith [h3]

/-- **C8 (amended).**  The grid origin indices are `floor(bbox_min / W)`
componentwise, as the spec says; each cell really is the unit square scaled
by `W`, translated to its grid position and mapped back by the inverse of
the mask transform (the forward transform sends the cell-`(x,y)` point `p`
to `W*(p + (x,y))`); but the column/row counts are measured from the
floor-snapped grid origin, not from `bbox_min`: they can exceed the spec's
`ceil(bbox_span / W)` by one (and never fall short), and the resulting grid
still covers the bounding box. -/
theorem grid_construction (b : BBox) (W : ℚ) (hW : 0 < W)
    (o cs : ℚ × ℚ) (hcs : cs.1 ^ 2 + cs.2 ^ 2 = 1) (x y : ℤ) (p : ℚ × ℚ) :
    (grid_x0 b W = spec_x0 b W ∧ grid_y0 b W = spec_y0 b W) ∧
    maskXform o cs (cellCorner o cs W x y p)
      = (W * (p.1 + (x : ℚ)), W * (p.2 + (y : ℚ))) ∧
    (spec_cols b W ≤ grid_cols b W ∧ grid_cols b W ≤ spec_cols b W + 1) ∧
    (spec_rows b W ≤ grid_rows b W ∧ grid_rows b W ≤ spec_rows b W + 1) ∧
    ((grid_x0 b W : ℚ) * W ≤ b.xmin ∧
      b.xmax ≤ ((grid_x0 b W : ℚ) + (grid_cols b W : ℚ)) * W) ∧
    ((grid_y0 b W : ℚ) * W ≤ b.ymin ∧
      b.ymax ≤ ((grid_y0 b W : ℚ) + (grid_rows b W : ℚ)) * W) := by
  obtain ⟨hx1, hx2, hx3, hx4⟩ := snap_bounds b.xmin b.xmax W hW
  obtain ⟨hy1, hy2, hy3, hy4⟩ := snap_bounds b.ymin b.ymax W hW
  refine ⟨⟨rfl, rfl⟩, ?_, ⟨hx1, hx2⟩, ⟨hy1, hy2⟩, ⟨hx3, hx4⟩, ⟨hy3, hy4⟩⟩
  unfold maskXform cellCorner rotQ
  rw [Prod.mk.injEq]
  constructor
  · linear_combination (W * p.1 + (x : ℚ) * W) * hcs
  · linear_combination (W * p.2 + (y : ℚ) * W) * hcs

/-- **C8 counterexample.**  With `W = 1` and a bounding box spanning
`x ∈ [1/2, 6/5]`, the spec's column count `ceil(span / W)` is `1`, but the
code counts from the snapped origin `floor(1/2) = 0` and gets
`ceil(6/5) = 2` columns. -/
theorem grid_cols_counterexample :
    grid_cols ⟨1/2, 0, 6/5, 0⟩ 1 = 2 ∧ spec_cols ⟨1/2, 0, 6/5, 0⟩ 1 = 1 ∧
      grid_cols ⟨1/2, 0, 6/5, 0⟩ 1 ≠ spec_cols ⟨1/2, 0, 6/5, 0⟩ 1 := by
  have h1 : (⌈(6 / 5 : ℚ)⌉ : ℤ) = 2 := by
    rw [Int.ceil_eq_iff]
    norm_num
  have h2 : (⌈(7 / 10 : ℚ)⌉ : ℤ) = 1 := by
    rw [Int.ceil_eq_iff]
    norm_num
  have h0 : (⌊(1 / 2 : ℚ) / 1⌋ : ℤ) = 0 := by
    rw [Int.floor_eq_iff]
    norm_num
  refine ⟨?_, ?_, ?_⟩
  · show (⌈((6 / 5 : ℚ) - (⌊(1 / 2 : ℚ) / 1⌋ : ℚ) * 1) / 1⌉ : ℤ) = 2
    rw [h0]
    norm_num [h1]
  · show (⌈((6 / 5 : ℚ) - 1 / 2) / 1⌉ : ℤ) = 1
    norm_num [h2]
  · show (⌈((6 / 5 : ℚ) - (⌊(1 / 2 : ℚ) / 1⌋ : ℚ) * 1) / 1⌉ : ℤ)
      ≠ ⌈((6 / 5 : ℚ) - 1 / 2) / 1⌉
    rw [h0]
    norm_num [h1, h2]

theorem grid_construction_witness :
    maskXform (0, 0) (1, 0) (cellCorner (0, 0) (1, 0) 1 0 0 (0, 0))
      = (1 * ((0 : ℚ) + ((0 : ℤ) : ℚ)), 1 * ((0 : ℚ) + ((0 : ℤ) : ℚ))) :=
  (grid_construction ⟨0, 0, 1, 1⟩ 1 (by norm_num) (0, 0) (1, 0) (by norm_num)
    0 0 (0, 0)).2.1

/-! ## Backend prologue and the pad-count assert (claim C9), lines 337-353 -/

/-- The three ways the prologue can abort. -/
inductive GenErr where
  | generatorError
  | indexError
  | assertionError
deriving DecidableEq

/-- An anchor pad: its x-size (`GetSize()[0]`) and position, in mm. -/
structure Pad where
  size : ℚ
  px : ℚ
  py : ℚ
deriving DecidableEq

/-- Lines 338-353 of `generate_mesh_backend`, up to the computation of
`grid_cell_width`: raise `GeneratorError` when no outline exists; then read
`anchor_pads[0]` and `anchor_pads[1]` (an `IndexError` when fewer than two
pads exist) *before* the `assert num_traces%4 == 0`; on success return
`num_traces` and `grid_cell_width`.  `dist` abstracts `math.dist` on pad
positions. -/
def backendPrologue (outlines : ℕ) (pads : List Pad)
    (dist : Pad → Pad → ℚ) : Except GenErr (ℕ × ℚ) :=
  if outlines = 0 then .error .generatorError
  else
    match pads[0]?, pads[1]? with
    | some p0, some p1 =>
      let trace_width := p0.size
      let space_width := dist p0 p1 - trace_width
      if pads.length % 4 ≠ 0 then .error .assertionError
      else
        let num_traces := pads.length / 4
        .ok (num_traces, (trace_width + space_width) * (num_traces : ℚ) * 2)
    | _, _ => .error .indexError

/-- **C9 (amended).**  The prologue fails with the `GeneratorError` first when
there is no outline; with at least one outline it hits the `anchor_pads[1]`
(or `anchor_pads[0]`) subscript before the assert, so fewer than two pads
give an `IndexError`, never the claimed assertion failure — in particular a
1-pad anchor has a pad count that is not a multiple of 4 yet does not trip
the assert.  The assertion failure happens iff there are at least two pads
and the pad count is not a multiple of 4; all failures happen before
anything else is computed, and on success `num_traces = pad_count / 4` and
`grid_cell_width = (trace_width + space_width) * num_traces * 2`. -/
lemma getE0 {p0 : Pad} {l : List Pad} : (p0 :: l)[0]? = some p0 := by simp

lemma getE1 {p0 p1 : Pad} {l : List Pad} : (p0 :: p1 :: l)[1]? = some p1 := by
  simp

lemma backendPrologue_cons (outlines : ℕ) (p0 p1 : Pad) (rest : List Pad)
    (dist : Pad → Pad → ℚ) (ho : outlines ≠ 0) :
    backendPrologue outlines (p0 :: p1 :: rest) dist
      = if (p0 :: p1 :: rest).length % 4 ≠ 0 then .error .assertionError
        else .ok ((p0 :: p1 :: rest).length / 4,
          (p0.size + (dist p0 p1 - p0.size))
            * (((p0 :: p1 :: rest).length / 4 : ℕ) : ℚ) * 2) := by
  unfold backendPrologue
  rw [if_neg ho, getE0, getE1]

lemma backendPrologue_short (outlines : ℕ) (pads : List Pad)
    (dist : Pad → Pad → ℚ) (ho : outlines ≠ 0) (hlen : pads.length ≤ 1) :
    backendPrologue outlines pads dist = .error .indexError := by
  unfold backendPrologue
  rw [if_neg ho]
  match pads, hlen with
  | [], _ => rfl
  | [p0], _ => rfl

theorem backend_prologue_spec (outlines : ℕ) (pads : List Pad)
    (dist : Pad → Pad → ℚ) :
    (outlines = 0 → backendPrologue outlines pads dist
        = .error .generatorError) ∧
    (outlines ≠ 0 → pads.length ≤ 1 →
      backendPrologue outlines pads dist = .error .indexError) ∧
    (backendPrologue outlines pads dist = .error .assertionError ↔
      outlines ≠ 0 ∧ 2 ≤ pads.length ∧ pads.length % 4 ≠ 0) ∧
    (∀ p0 p1 rest, pads = p0 :: p1 :: rest → outlines ≠ 0 →
      pads.length % 4 = 0 →
      backendPrologue outlines pads dist
        = .ok (pads.length / 4,
            (p0.size + (dist p0 p1 - p0.size))
              * ((pads.length / 4 : ℕ) : ℚ) * 2)) := by
  refine ⟨?_, backendPrologue_short outlines pads dist, ?_, ?_⟩
  · intro h
    unfold backendPrologue
    rw [if_pos h]
  · constructor
    · intro h
      by_cases ho : outlines = 0
      · rw [show backendPrologue outlines pads dist
            = .error .generatorError from by unfold backendPrologue; rw [if_pos ho]]
            at h
        simp at h
      · refine ⟨ho, ?_⟩
        match pads, h with
        | [], h =>
          rw [backendPrologue_short outlines [] dist ho (by simp)] at h
          simp at h
        | [p0], h =>
          rw [backendPrologue_short outlines [p0] dist ho (by simp)] at h
          simp at h
        | p0 :: p1 :: rest, h =>
          refine ⟨by simp, ?_⟩
          intro hm
          rw [backendPrologue_cons outlines p0 p1 rest dist ho,
            if_neg (not_not_intro hm)] at h
          simp at h
    · rintro ⟨ho, hlen, hm⟩
      match pads, hlen, hm with
      | p0 :: p1 :: rest, _, hm =>
        rw [backendPrologue_cons outlines p0 p1 rest dist ho, if_pos hm]
  · intro p0 p1 rest hpads ho hm
    subst hpads
    rw [backendPrologue_cons outlines p0 p1 rest dist ho,
      if_neg (not_not_intro hm)]

/-- **C9 counterexample.**  A single-pad anchor: the pad count `1` is not a
multiple of 4, so the claim demands an assertion failure, but the code dies
on the `anchor_pads[1]` subscript (`IndexError`) before reaching the
assert. -/
theorem backend_prologue_counterexample :
    backendPrologue 1 [⟨1, 0, 0⟩] (fun _ _ => 0) = .error .indexError ∧
    (1 : ℕ) % 4 ≠ 0 ∧
    backendPrologue 1 [⟨1, 0, 0⟩] (fun _ _ => 0) ≠ .error .assertionError := by
  refine ⟨rfl, by decide, ?_⟩
  intro h
  have h1 : backendPrologue 1 [⟨1, 0, 0⟩] (fun _ _ => 0)
      = Except.error GenErr.indexError := rfl
  rw [h1] at h
  injection h with h3
  cases h3

theorem backend_prologue_spec_witness :
    backendPrologue 1 [⟨1, 0, 0⟩, ⟨1, 0, 3⟩, ⟨1, 3, 0⟩, ⟨1, 3, 3⟩]
        (fun _ _ => 4)
      = .ok ([⟨1, 0, 0⟩, ⟨1, 0, 3⟩, ⟨1, 3, 0⟩, (⟨1, 3, 3⟩ : Pad)].length / 4,
          ((1 : ℚ) + ((fun _ _ => (4 : ℚ)) (⟨1, 0, 0⟩ : Pad) (⟨1, 0, 3⟩ : Pad)
              - 1))
            * (([⟨1, 0, 0⟩, ⟨1, 0, 3⟩, ⟨1, 3, 0⟩,
                (⟨1, 3, 3⟩ : Pad)].length / 4 : ℕ) : ℚ) * 2) :=
  (backend_prologue_spec 1 [⟨1, 0, 0⟩, ⟨1, 0, 3⟩, ⟨1, 3, 0⟩, ⟨1, 3, 3⟩]
      (fun _ _ => 4)).2.2.2 ⟨1, 0, 0⟩ ⟨1, 0, 3⟩ [⟨1, 3, 0⟩, ⟨1, 3, 3⟩]
    rfl (by decide) (by decide)

end Kimesh
